import Mathlib

/-!
corekv: the arena allocator and the Bloom filter

A shallow embedding of `utils/arena.go` and `utils/bloom.go`.

Conventions of the embedding.

* A byte slice is a `List Nat` whose elements are below 256; a `uint32`
  is a `Nat` below `2 ^ 32`, and every `uint32` operation of the source is
  followed by an explicit `% 2 ^ 32`.
* Go's `int` is the 64-bit signed integer: an `Int`, wrapped by `wrapInt64`
  after every operation that can overflow.
* A run-time panic (index or slice out of range, integer division by zero,
  `make` with a negative length, `panic(...)`) and the fatal exit of
  `AssertTrue` are the result `none`. Running out of memory is not modelled:
  `make` returns a slice of every non-negative length.
* `MaxNodeSize` and `defaultMaxLevel` are defined from the `Element` type of
  the skip list, which is outside these two files: they are the parameters
  `maxNodeSize` and `maxLevel` of the arena operations.
* The Go specification leaves the result of converting a floating-point value
  that the target type cannot represent implementation-dependent. The
  parameter `cvt` of `appendFilter` is that result for `uint8`, and the one
  of `BloomBitsPerKey` is that result for `int`.
* The product `float64(bitsPerKey) * 0.69` of `appendFilter` is modelled
  exactly (`truncMul069`), and so are the product, the sum and the conversion
  of `BloomBitsPerKey`. The library function `math.Log2` is outside these two
  files: it is the parameter `log2` of `BloomBitsPerKey`. The Go specification
  lets a compiler fuse `x * y + z` into one operation with one rounding: the
  parameter `fma` tells whether it does.
* The fields of an arena are not exported: the states a program reaches are
  those that `runOps` yields from the result of `newArena`, by any calls of
  `allocate`, `putKey` and `putNode` and any writes into the buffer in place.
-/

namespace Corekv

/-! ## Machine arithmetic -/

/-- Wrap an integer into the range of Go's 64-bit `int`. -/
def wrapInt64 (x : Int) : Int := (x + 2 ^ 63) % 2 ^ 64 - 2 ^ 63

/-- Conversion `uint32(x)` of a Go `int`. -/
def toUint32 (x : Int) : Nat := (x % 2 ^ 32).toNat

/-- Subtraction `a - b` of two `uint32` values. -/
def sub32 (a b : Nat) : Nat := (a + 2 ^ 32 - b % 2 ^ 32) % 2 ^ 32

/-- Number of binary digits of `n`; the first argument bounds the recursion. -/
def bitLength : Nat → Nat → Nat
  | 0, _ => 0
  | fuel + 1, n => if n = 0 then 0 else bitLength fuel (n / 2) + 1

/-- Round `n` to the nearest multiple of `2 ^ sh`, ties to the even multiple. -/
def roundShift (n sh : Nat) : Nat :=
  let q := n / 2 ^ sh
  let r := n % 2 ^ sh
  if 2 * r < 2 ^ sh then q * 2 ^ sh
  else if 2 ^ sh < 2 * r then (q + 1) * 2 ^ sh
  else if q % 2 = 0 then q * 2 ^ sh
  else (q + 1) * 2 ^ sh

/-- Round a natural number to 53 significant binary digits, the precision of a
`float64` (round to nearest, ties to even). -/
def round53 (n : Nat) : Nat := roundShift n (bitLength n n - 53)

/-- The `float64` nearest to the decimal constant `0.69` is
`mant069 / 2 ^ 53`. -/
def mant069 : Nat := 6214967485771284

/-- The integer part of the `float64` product `float64(b) * 0.69` for a
non-negative `int` `b`: `float64(b)` is `b` rounded to 53 digits, the exact
product is `round53 b * mant069 / 2 ^ 53`, and it is rounded to 53 digits
again. -/
def truncMul069 (b : Nat) : Nat := round53 (round53 b * mant069) / 2 ^ 53

/-- Conversion `uint8(x)` of a non-negative `float64` with integer part `t`:
exact when `t` fits, and `cvt t` (some `uint8`) when it does not. -/
def f64ToUint8 (cvt : Nat → Nat) (t : Nat) : Nat :=
  if t < 256 then t else cvt t % 256

/-- A filter is a byte sequence: the bit array followed by the probe count. -/
abbrev Filter := List Nat

/-- Function `Filter.K`: the last byte, `f[len(f) - 1]`. -/
def Filter.K (f : Filter) : Option Nat :=
  if f.length = 0 then none else f[f.length - 1]?

/-- Function `posInFilter`: byte index and bit index of hash `h` in a bit array of
`filterLen` bytes. -/
def posInFilter (h : Nat) (filterLen : Int) : Option (Nat × Nat) :=
  let nBits := toUint32 (wrapInt64 (filterLen * 8))
  if nBits = 0 then none
  else
    let bitPos := h % nBits
    some (bitPos / 8, bitPos % 8)

/-- Function `Filter.get`: the bit of the filter addressed by `h`. -/
def Filter.get (f : Filter) (h : Nat) : Option Nat :=
  match posInFilter h ((f.length : Int) - 1) with
  | none => none
  | some (x, y) =>
    match f[x]? with
    | none => none
    | some b => some ((b >>> y) &&& 1)

/-- Function `Filter.set`: set the bit of the filter addressed by `h`. -/
def Filter.set (f : Filter) (h : Nat) : Option Filter :=
  match posInFilter h ((f.length : Int) - 1) with
  | none => none
  | some (x, y) =>
    match f[x]? with
    | none => none
    | some b => some (List.set f x ((b ||| 1 <<< y) % 256))

/-- The second hash of the double hashing: `h >> 17 | h << 15` on `uint32`. -/
def hashDelta (h : Nat) : Nat := (h >>> 17 ||| (h <<< 15) % 2 ^ 32) % 2 ^ 32

/-- The probe loop of `MayContain`, with `j` iterations left. -/
def mayContainLoop (f : Filter) (delta : Nat) : Nat → Nat → Option Bool
  | 0, _ => some true
  | j + 1, h =>
    match f.get h with
    | none => none
    | some b => if b = 0 then some false else mayContainLoop f delta j ((h + delta) % 2 ^ 32)

/-- Function `Filter.MayContain`. -/
def Filter.MayContain (f : Filter) (h : Nat) : Option Bool :=
  match f.K with
  | none => none
  | some k => mayContainLoop f (hashDelta h) k h

/-- The inner loop of `appendFilter`: the `j` remaining probes of one key. -/
def setProbes (delta : Nat) : Nat → Filter → Nat → Option Filter
  | 0, f, _ => some f
  | j + 1, f, h =>
    match f.set h with
    | none => none
    | some g => setProbes delta j g ((h + delta) % 2 ^ 32)

/-- The outer loop of `appendFilter`: all keys, each with `k` probes. -/
def addKeys (k : Nat) : List Nat → Filter → Option Filter
  | [], f => some f
  | h :: rest, f =>
    match setProbes (hashDelta h) k f h with
    | none => none
    | some g => addKeys k rest g

/-- The probe count `k` of `appendFilter` (lines 90 to 101): the clamp of
`bitsPerKey` at 0, the conversion `uint8(float64(bitsPerKey) * 0.69)` and the
two clamps of `k`. -/
def probeCount (cvt : Nat → Nat) (bitsPerKey : Int) : Nat :=
  let bitsPerKey := if bitsPerKey < 0 then 0 else bitsPerKey
  let k := f64ToUint8 cvt (truncMul069 bitsPerKey.toNat)
  let k := if k < 1 then 1 else k
  let k := if k > 30 then 30 else k
  k

/-- The byte count `nBytes` of `appendFilter` (lines 90 to 92 and 103 to 112)
for `keyLen` keys, in the arithmetic of `int`. -/
def filterBytes (keyLen : Nat) (bitsPerKey : Int) : Int :=
  let bitsPerKey := if bitsPerKey < 0 then 0 else bitsPerKey
  let nBits := wrapInt64 (bitsPerKey * (keyLen : Int))
  let nBits := if nBits < 64 then 64 else nBits
  (wrapInt64 (nBits + 7)).tdiv 8

/-- The assignment `f[i] = v` with an `int` index; it panics when `i` is out of
range. -/
def setIndex (f : List Nat) (i : Int) (v : Nat) : Option (List Nat) :=
  if i < 0 ∨ (f.length : Int) ≤ i then none else some (List.set f i.toNat v)

/-- Function `appendFilter`: `make` panics on a negative length. -/
def appendFilter (cvt : Nat → Nat) (keys : List Nat) (bitsPerKey : Int) : Option Filter :=
  let k := probeCount cvt bitsPerKey
  let nBytes := filterBytes keys.length bitsPerKey
  if nBytes + 1 < 0 then none
  else
    let filter : Filter := List.replicate (nBytes + 1).toNat 0
    match addKeys k keys filter with
    | none => none
    | some filter => setIndex filter nBytes k

/-- Function `NewFilter`. -/
def NewFilter (cvt : Nat → Nat) (keys : List Nat) (bitsPerKey : Int) : Option Filter :=
  appendFilter cvt keys bitsPerKey

/-- The probe count as the specification words it: `bitsPerKey × 0.69`, with
`bitsPerKey` raised to 0, rounded to the nearest integer (a tie goes up) and
clamped to `[1, 30]`. -/
def roundedProbeCount (bitsPerKey : Int) : Nat :=
  min 30 (max 1 ((69 * (max bitsPerKey 0).toNat + 50) / 100))

/-- The probe count with the product truncated instead of rounded:
`⌊bitsPerKey × 0.69⌋`, with `bitsPerKey` raised to 0, clamped to `[1, 30]`. -/
def truncatedProbeCount (bitsPerKey : Int) : Nat :=
  min 30 (max 1 (69 * (max bitsPerKey 0).toNat / 100))

/-- The bit addressed by `h` in a bit array of `n` bytes is set in `f`. -/
def bitAt (f : Filter) (n h : Nat) : Prop :=
  ∃ b, f[h % (8 * n) / 8]? = some b ∧ b.testBit (h % (8 * n) % 8) = true

/-- The `j` probes of the double hashing sequence that starts at `h` are all
set in `f`, a filter with a bit array of `n` bytes. -/
def probesSet (f : Filter) (n delta : Nat) : Nat → Nat → Prop
  | 0, _ => True
  | j + 1, h => bitAt f n h ∧ probesSet f n delta j ((h + delta) % 2 ^ 32)

/-- The bit at position `pos` of a byte sequence: byte `pos / 8`, bit
`pos % 8`, least significant bit first. -/
def bitIsSet (f : Filter) (pos : Nat) : Bool :=
  match f[pos / 8]? with
  | some b => b.testBit (pos % 8)
  | none => false

/-- The hash that the probe loops reach after `i` steps from `h`: each step
adds `delta` on `uint32`. -/
def probeHash (delta : Nat) : Nat → Nat → Nat
  | h, 0 => h
  | h, i + 1 => probeHash delta ((h + delta) % 2 ^ 32) i

/-- The position of probe `j` of hash `h` in a bit array of `nBits` bits:
`((h + j * delta(h)) mod 2 ^ 32) mod nBits`. -/
def probePos (nBits h j : Nat) : Nat := ((h + j * hashDelta h) % 2 ^ 32) % nBits

/-- The bit count as the specification words it:
`max(64, max(bitsPerKey, 0) × numKeys)`, without overflow. -/
def specBits (keyLen : Nat) (bitsPerKey : Int) : Nat :=
  max 64 ((max bitsPerKey 0).toNat * keyLen)

/-- The byte count as the specification words it: `ceil(nBits / 8)`. -/
def specBytes (keyLen : Nat) (bitsPerKey : Int) : Nat :=
  (specBits keyLen bitsPerKey + 7) / 8

/-! ## utils/arena.go

Every arena operation returns the offset, if the call returned one, together
with the arena as the call leaves it: a call that panics returns `none` and
the arena with the assignments made before the panic. -/

/-- The arena: the cursor `n` (a `uint32`) and the buffer `buf`. -/
structure Arena where
  n : Nat
  buf : List Nat
deriving DecidableEq

/-- Constant `MaxArenaSize = 100 << 20`. -/
def MaxArenaSize : Nat := 100 <<< 20

/-- Constant `offsetSize`, the size of a `uint32`. -/
def offsetSize : Nat := 4

/-- Constant `nodeAlign`, the size of a `uint64` minus one. -/
def nodeAlign : Nat := 8 - 1

/-- Go's `copy(dst, src)`: the first `min (len dst) (len src)` elements of
`dst` are overwritten; the result is the new `dst` and the number copied. -/
def goCopy (dst src : List Nat) : List Nat × Nat :=
  let c := min dst.length src.length
  (src.take c ++ dst.drop c, c)

/-- Function `newArena`: cursor 1 and `n` zero bytes; `make` panics on a negative `n`. -/
def newArena (n : Int) : Option Arena :=
  if n < 0 then none else some ⟨1, List.replicate n.toNat 0⟩

/-- The end of the growth branch of `allocate`: a new buffer of
`currentSize + growth` bytes receives the old one; `AssertTrue` checks that
all of it was copied. -/
def growBuf (buf : List Nat) (currentSize growth : Nat) : Option (List Nat) :=
  let newBuf := List.replicate ((currentSize + growth) % 2 ^ 32) 0
  let r := goCopy newBuf buf
  if buf.length = r.2 then some r.1 else none

/-- The growth branch of `allocate`: the new buffer, or `none` when the call
panics. -/
def grownBuf (buf : List Nat) (sz : Nat) : Option (List Nat) :=
  let currentSize := buf.length % 2 ^ 32
  let growth := buf.length % 2 ^ 32
  let growth := if growth > 10 <<< 20 then 10 <<< 20 else growth
  let growth := if growth < sz then sz else growth
  if (growth + currentSize) % 2 ^ 32 > MaxArenaSize then
    let growth := sub32 MaxArenaSize currentSize
    if growth < sz then none else growBuf buf currentSize growth
  else growBuf buf currentSize growth

/-- Function `Arena.allocate`. Every panic precedes the two assignments `s.buf = newBuf`
and `s.n = newOffset`. -/
def Arena.allocate (maxNodeSize : Nat) (s : Arena) (sz : Nat) : Option Nat × Arena :=
  if sz > MaxArenaSize then (none, s)
  else
    let currentSize := s.buf.length % 2 ^ 32
    let newOffset := (sz + s.n) % 2 ^ 32
    if newOffset > MaxArenaSize then (none, s)
    else if sub32 currentSize maxNodeSize < newOffset then
      match grownBuf s.buf sz with
      | none => (none, s)
      | some newBuf => (some (sub32 newOffset sz), ⟨newOffset, newBuf⟩)
    else (some (sub32 newOffset sz), ⟨newOffset, s.buf⟩)

/-- Function `Arena.putNode`; `height` is a Go `int`. -/
def Arena.putNode (maxNodeSize maxLevel : Nat) (s : Arena) (height : Int) :
    Option Nat × Arena :=
  let nodeSize := sub32 maxNodeSize ((offsetSize * sub32 maxLevel (toUint32 height)) % 2 ^ 32)
  let alignedNodeSize := (nodeSize + nodeAlign) % 2 ^ 32
  match s.allocate maxNodeSize alignedNodeSize with
  | (none, s1) => (none, s1)
  | (some offset, s1) =>
    (some (((offset + nodeAlign) % 2 ^ 32) &&& (2 ^ 32 - 1 - nodeAlign)), s1)

/-- Function `Arena.putKey`: `s.buf[offset:]` panics when `offset` is beyond the
buffer, and `AssertTrue` fails when the key was not copied whole. -/
def Arena.putKey (maxNodeSize : Nat) (s : Arena) (key : List Nat) : Option Nat × Arena :=
  let keySize := key.length
  match s.allocate maxNodeSize (keySize % 2 ^ 32) with
  | (none, s1) => (none, s1)
  | (some offset, s1) =>
    if s1.buf.length < offset then (none, s1)
    else
      let r := goCopy (s1.buf.drop offset) key
      let s2 : Arena := ⟨s1.n, s1.buf.take offset ++ r.1⟩
      if key.length = r.2 then (some offset, s2) else (none, s2)

/-- Function `Arena.getKey`: the slice `s.buf[offset : offset + uint32(size)]`, `size`
a `uint16`. -/
def Arena.getKey (s : Arena) (offset size : Nat) : Option (List Nat) :=
  let hi := (offset + size % 2 ^ 16) % 2 ^ 32
  if hi < offset ∨ s.buf.length < hi then none
  else some ((s.buf.drop offset).take (hi - offset))

/-- A sequence of `allocate` calls on one arena: the result of every call, in
call order, and the final arena. -/
def allocateRun (maxNodeSize : Nat) : Arena → List Nat → List (Option Nat) × Arena
  | s, [] => ([], s)
  | s, sz :: rest =>
    let r := s.allocate maxNodeSize sz
    let t := allocateRun maxNodeSize r.2 rest
    (r.1 :: t.1, t.2)

/-- A sequence of `putKey` calls on one arena: the result of every call, in
call order, and the final arena. -/
def putKeyRun (maxNodeSize : Nat) : Arena → List (List Nat) → List (Option Nat) × Arena
  | s, [] => ([], s)
  | s, key :: rest =>
    let r := s.putKey maxNodeSize key
    let t := putKeyRun maxNodeSize r.2 rest
    (r.1 :: t.1, t.2)

/-- One step of a program on an arena: a call of `allocate`, `putKey` or
`putNode`, or a write of bytes into the buffer, in place. (`putVal` calls
`allocate` and then encodes the value into the buffer, by a codec outside
these files; the skip list writes its nodes through the pointers that
`getElement` returns.) -/
inductive ArenaOp where
  | allocate (sz : Nat)
  | putKey (key : List Nat)
  | putNode (height : Int)
  | store (bytes : List Nat)

/-- The arena as one step leaves it, whether the call returns or panics; a
write in place keeps the cursor and the length of the buffer. -/
def applyOp (maxNodeSize maxLevel : Nat) (s : Arena) : ArenaOp → Arena
  | ArenaOp.allocate sz => (s.allocate maxNodeSize sz).2
  | ArenaOp.putKey key => (s.putKey maxNodeSize key).2
  | ArenaOp.putNode height => (s.putNode maxNodeSize maxLevel height).2
  | ArenaOp.store bytes => if bytes.length = s.buf.length then ⟨s.n, bytes⟩ else s

/-- The arena after a sequence of steps: the arena states of the program are
the results of `runOps` on an arena made by `newArena`. -/
def runOps (maxNodeSize maxLevel : Nat) : Arena → List ArenaOp → Arena
  | s, [] => s
  | s, op :: rest => runOps maxNodeSize maxLevel (applyOp maxNodeSize maxLevel s op) rest

/-- The in-bounds predicate on an arena: the cursor is at least 1 and within
the buffer, and the buffer length lies between `MaxNodeSize` and
`MaxArenaSize`. -/
@[reducible] def arenaInv (maxNodeSize : Nat) (s : Arena) : Prop :=
  1 ≤ s.n ∧ s.n ≤ s.buf.length ∧ maxNodeSize ≤ s.buf.length ∧ s.buf.length ≤ MaxArenaSize

/-! ## Lemmas on the arena -/

theorem sub32_add_mod (a b : Nat) (ha : a < 2 ^ 32) (hb : b < 2 ^ 32) :
    sub32 ((b + a) % 2 ^ 32) b = a := by
  unfold sub32
  omega

theorem growBuf_some {buf : List Nat} {c g : Nat} {b : List Nat}
    (h : growBuf buf c g = some b) :
    b = buf ++ List.replicate ((c + g) % 2 ^ 32 - buf.length) 0 ∧
      buf.length ≤ (c + g) % 2 ^ 32 := by
  unfold growBuf goCopy at h
  simp only [List.length_replicate] at h
  split at h
  · rename_i hlen
    have hle : buf.length ≤ (c + g) % 2 ^ 32 := by omega
    simp only [Option.some.injEq] at h
    rw [← h, min_eq_right hle, List.take_of_length_le (le_refl _), List.drop_replicate]
    exact ⟨rfl, hle⟩
  · cases h

theorem grownBuf_some {buf : List Nat} {sz : Nat} {b : List Nat}
    (h : grownBuf buf sz = some b) : ∃ m, b = buf ++ List.replicate m 0 := by
  unfold grownBuf at h
  simp only at h
  split_ifs at h
  all_goals exact ⟨_, (growBuf_some h).1⟩

/-- What a successful `allocate` does. -/
theorem allocate_some {M : Nat} {s : Arena} {sz off : Nat}
    (h : (s.allocate M sz).1 = some off) :
    sz ≤ MaxArenaSize ∧ (sz + s.n) % 2 ^ 32 ≤ MaxArenaSize ∧
      off = sub32 ((sz + s.n) % 2 ^ 32) sz ∧
      (s.allocate M sz).2.n = (sz + s.n) % 2 ^ 32 ∧
      ∃ m, (s.allocate M sz).2.buf = s.buf ++ List.replicate m 0 := by
  unfold Arena.allocate at h ⊢
  dsimp only at h ⊢
  by_cases h1 : sz > MaxArenaSize
  · rw [if_pos h1] at h
    cases h
  rw [if_neg h1] at h ⊢
  by_cases h2 : (sz + s.n) % 2 ^ 32 > MaxArenaSize
  · rw [if_pos h2] at h
    cases h
  rw [if_neg h2] at h ⊢
  by_cases h3 : sub32 (s.buf.length % 2 ^ 32) M < (sz + s.n) % 2 ^ 32
  · rw [if_pos h3] at h ⊢
    cases hg : grownBuf s.buf sz with
    | none =>
      rw [hg] at h
      cases h
    | some nb =>
      rw [hg] at h
      dsimp only at h ⊢
      exact ⟨by omega, by omega, (Option.some.inj h).symm, rfl, grownBuf_some hg⟩
  · rw [if_neg h3] at h ⊢
    dsimp only at h ⊢
    exact ⟨by omega, by omega, (Option.some.inj h).symm, rfl, 0, by simp⟩

/-- A failing `allocate` leaves the arena as it was. -/
theorem allocate_none {M : Nat} {s : Arena} {sz : Nat}
    (h : (s.allocate M sz).1 = none) : (s.allocate M sz).2 = s := by
  unfold Arena.allocate at h ⊢
  dsimp only at h ⊢
  by_cases h1 : sz > MaxArenaSize
  · rw [if_pos h1]
  rw [if_neg h1] at h ⊢
  by_cases h2 : (sz + s.n) % 2 ^ 32 > MaxArenaSize
  · rw [if_pos h2]
  rw [if_neg h2] at h ⊢
  by_cases h3 : sub32 (s.buf.length % 2 ^ 32) M < (sz + s.n) % 2 ^ 32
  · rw [if_pos h3] at h ⊢
    cases hg : grownBuf s.buf sz with
    | none => rfl
    | some nb =>
      rw [hg] at h
      cases h
  · rw [if_neg h3] at h
    cases h

/-- On an arena whose cursor is within `MaxArenaSize`, a successful `allocate`
returns the old cursor and advances it by `sz`. -/
theorem allocate_some_of_le {M : Nat} {s : Arena} {sz off : Nat}
    (hn : s.n ≤ MaxArenaSize) (h : (s.allocate M sz).1 = some off) :
    off = s.n ∧ (s.allocate M sz).2.n = s.n + sz ∧ s.n + sz ≤ MaxArenaSize := by
  obtain ⟨h1, h2, h3, h4, -⟩ := allocate_some h
  have hM : MaxArenaSize = 104857600 := by decide
  rw [hM] at h1 h2 hn ⊢
  have e : (sz + s.n) % 2 ^ 32 = sz + s.n := Nat.mod_eq_of_lt (by omega)
  rw [e] at h2 h3 h4
  refine ⟨?_, by omega, by omega⟩
  rw [h3]
  unfold sub32
  omega

theorem allocate_cursor_le (M : Nat) (s : Arena) (sz : Nat) (hn : s.n ≤ MaxArenaSize) :
    s.n ≤ (s.allocate M sz).2.n ∧ (s.allocate M sz).2.n ≤ MaxArenaSize := by
  cases hr : (s.allocate M sz).1 with
  | none =>
    rw [allocate_none hr]
    exact ⟨le_refl _, hn⟩
  | some off =>
    obtain ⟨-, h2, h3⟩ := allocate_some_of_le hn hr
    omega

theorem newArena_cursor {n0 : Int} {a : Arena} (h : newArena n0 = some a) : a.n = 1 := by
  unfold newArena at h
  split_ifs at h
  cases h
  rfl

/-- Every offset returned in a run is at least the cursor the run starts from. -/
theorem allocateRun_ge (M : Nat) (sizes : List Nat) :
    ∀ (s : Arena), s.n ≤ MaxArenaSize →
      ∀ o, some o ∈ (allocateRun M s sizes).1 → s.n ≤ o := by
  induction sizes with
  | nil =>
    intro s _ o ho
    simp [allocateRun] at ho
  | cons sz rest ih =>
    intro s hn o ho
    simp only [allocateRun, List.mem_cons] at ho
    rcases ho with ho | ho
    · exact le_of_eq (allocate_some_of_le hn ho.symm).1.symm
    · have h1 := allocate_cursor_le M s sz hn
      exact le_trans h1.1 (ih _ h1.2 o ho)

theorem allocateRun_disjoint (M : Nat) (sizes : List Nat) :
    ∀ (s : Arena), s.n ≤ MaxArenaSize → ∀ (i j oi si oj : Nat), i < j →
      (allocateRun M s sizes).1[i]? = some (some oi) → sizes[i]? = some si →
      (allocateRun M s sizes).1[j]? = some (some oj) → oi + si ≤ oj := by
  induction sizes with
  | nil =>
    intro s _ i j oi si oj _ _ hs _
    simp at hs
  | cons sz rest ih =>
    intro s hn i j oi si oj hij hi hs hj
    have h1 := allocate_cursor_le M s sz hn
    obtain ⟨j, rfl⟩ : ∃ j1, j = j1 + 1 := ⟨j - 1, by omega⟩
    simp only [allocateRun, List.getElem?_cons_succ] at hj
    cases i with
    | zero =>
      simp only [allocateRun, List.getElem?_cons_zero, Option.some.injEq] at hi hs
      obtain ⟨e1, e2, -⟩ := allocate_some_of_le hn hi
      have := allocateRun_ge M rest _ h1.2 oj (List.getElem?_mem hj)
      omega
    | succ i =>
      simp only [allocateRun, List.getElem?_cons_succ] at hi hs
      exact ih _ h1.2 i j oi si oj (by omega) hi hs hj

/-- What a successful `putKey` does: the allocation succeeded, the key fits
behind the returned offset, and the key overwrites the buffer there. -/
theorem putKey_some {M : Nat} {s : Arena} {key : List Nat} {off : Nat}
    (h : (s.putKey M key).1 = some off) :
    (s.allocate M (key.length % 2 ^ 32)).1 = some off ∧
      off + key.length ≤ (s.allocate M (key.length % 2 ^ 32)).2.buf.length ∧
      (s.putKey M key).2.n = (s.allocate M (key.length % 2 ^ 32)).2.n ∧
      (s.putKey M key).2.buf =
        (s.allocate M (key.length % 2 ^ 32)).2.buf.take off ++
          (key ++ (s.allocate M (key.length % 2 ^ 32)).2.buf.drop (off + key.length)) := by
  unfold Arena.putKey goCopy at h ⊢
  dsimp only at h ⊢
  rcases hr : s.allocate M (key.length % 2 ^ 32) with ⟨_ | o, s1⟩
  · rw [hr] at h
    cases h
  · rw [hr] at h
    dsimp only at h ⊢
    by_cases h1 : s1.buf.length < o
    · rw [if_pos h1] at h
      cases h
    · rw [if_neg h1] at h ⊢
      simp only [List.length_drop] at h ⊢
      by_cases h2 : key.length = min (s1.buf.length - o) key.length
      · rw [if_pos h2] at h ⊢
        dsimp only at h ⊢
        have e : o = off := Option.some.inj h
        subst e
        have h3 : key.length ≤ s1.buf.length - o := by omega
        refine ⟨rfl, by omega, rfl, ?_⟩
        rw [min_eq_right h3, List.take_of_length_le (le_refl _), List.drop_drop]
      · rw [if_neg h2] at h
        cases h

theorem slice_eq_of_take_eq {a b : List Nat} {n o l : Nat} (h : a.take n = b.take n)
    (hol : o + l ≤ n) : (a.drop o).take l = (b.drop o).take l := by
  rw [List.take_drop, List.take_drop]
  have e : ∀ c : List Nat, c.take (o + l) = (c.take n).take (o + l) := by
    intro c
    rw [List.take_take, min_eq_left hol]
  rw [e a, e b, h]

theorem and_not_nodeAlign_mod (x : Nat) : (x &&& (2 ^ 32 - 1 - nodeAlign)) % 8 = 0 := by
  have h8 : (8 : Nat) = 2 ^ 3 := by norm_num
  rw [h8, ← Nat.and_pow_two_sub_one_eq_mod, Nat.and_assoc]
  have : (2 ^ 32 - 1 - nodeAlign) &&& (2 ^ 3 - 1) = 0 := by decide
  rw [this, Nat.and_zero]

/-- When the buffer has 16 bytes and `MaxNodeSize` exceeds 16, the `uint32`
difference `currentSize - MaxNodeSize` wraps around and `allocate 8` does not
grow the buffer. -/
theorem allocate_tiny_no_growth (M : Nat) (s : Arena) (hM : 16 < M) (hM32 : M < 2 ^ 32)
    (hb : s.buf.length = 16) (hn : s.n ≤ 9) :
    s.allocate M 8 = (some s.n, ⟨s.n + 8, s.buf⟩) := by
  have hMax : MaxArenaSize = 104857600 := by decide
  have e1 : (8 + s.n) % 2 ^ 32 = s.n + 8 := by omega
  have e2 : sub32 (s.n + 8) 8 = s.n := by
    unfold sub32
    omega
  have e3 : ¬ sub32 (16 % 2 ^ 32) M < s.n + 8 := by
    unfold sub32
    omega
  unfold Arena.allocate
  dsimp only
  rw [hb, e1, e2, hMax, if_neg (by omega), if_neg (by omega), if_neg e3]

theorem putKey_tiny_no_growth (M : Nat) (s : Arena) (key : List Nat) (hM : 16 < M)
    (hM32 : M < 2 ^ 32) (hb : s.buf.length = 16) (hn : s.n ≤ 9) (hk : key.length = 8) :
    (s.putKey M key).1 = (if s.n ≤ 8 then some s.n else none) ∧
      (s.putKey M key).2.n = s.n + 8 ∧ (s.putKey M key).2.buf.length = 16 := by
  have e8 : (8 : Nat) % 2 ^ 32 = 8 := by norm_num
  unfold Arena.putKey goCopy
  dsimp only
  rw [hk, e8, allocate_tiny_no_growth M s hM hM32 hb hn]
  dsimp only
  rw [if_neg (by omega)]
  simp only [List.length_drop, hb, hk]
  by_cases h8 : s.n ≤ 8
  · rw [if_pos h8, if_pos (by omega)]
    refine ⟨rfl, rfl, ?_⟩
    simp only [List.length_append, List.length_take, List.length_drop, hb, hk]
    omega
  · rw [if_neg h8, if_neg (by omega)]
    refine ⟨rfl, rfl, ?_⟩
    simp only [List.length_append, List.length_take, List.length_drop, hb, hk]
    omega

theorem growBuf_of_le {buf : List Nat} {c g : Nat} (h32 : c + g < 2 ^ 32)
    (h : buf.length ≤ c + g) :
    growBuf buf c g = some (buf ++ List.replicate (c + g - buf.length) 0) := by
  unfold growBuf goCopy
  simp only [List.length_replicate]
  rw [Nat.mod_eq_of_lt h32, min_eq_right h, if_pos rfl, List.take_of_length_le (le_refl _),
    List.drop_replicate]

/-- The growth branch on a buffer of at most `MaxArenaSize` bytes: it panics
exactly when the buffer and the request together exceed `MaxArenaSize`, and
otherwise appends zero bytes up to the new length. -/
theorem grownBuf_eq {buf : List Nat} {sz : Nat} (hC : buf.length ≤ MaxArenaSize)
    (hsz : sz ≤ MaxArenaSize) :
    grownBuf buf sz =
      if buf.length + sz > MaxArenaSize then none
      else some (buf ++ List.replicate
        (min (buf.length + max (min buf.length (10 <<< 20)) sz) MaxArenaSize - buf.length) 0) := by
  have hMax : MaxArenaSize = 104857600 := by decide
  have h10 : 10 <<< 20 = 10485760 := by decide
  rw [hMax] at hC hsz
  have hmod : buf.length % 2 ^ 32 = buf.length := Nat.mod_eq_of_lt (by omega)
  have hs : sub32 104857600 buf.length = 104857600 - buf.length := by
    unfold sub32
    omega
  have key : ∀ x, x ≤ 104857600 → (x + buf.length) % 2 ^ 32 = x + buf.length :=
    fun x hx => Nat.mod_eq_of_lt (by omega)
  unfold grownBuf
  dsimp only
  rw [hmod, hMax, h10, hs, key _ (by split_ifs <;> omega)]
  simp only [Nat.min_def, Nat.max_def]
  split_ifs
  all_goals first
    | rfl
    | omega
    | (rw [growBuf_of_le (by omega) (by omega)]
       try (congr 3 <;> omega))

/-- The whole of `allocate` on an arena whose buffer length lies between
`MaxNodeSize` and `MaxArenaSize` and whose cursor is within the buffer. -/
theorem allocate_eq_of_inv (M : Nat) (s : Arena) (sz : Nat) (hM : M ≤ s.buf.length)
    (hC : s.buf.length ≤ MaxArenaSize) (hn : s.n ≤ s.buf.length) :
    s.allocate M sz =
      if sz > MaxArenaSize ∨ s.n + sz > MaxArenaSize then (none, s)
      else if s.buf.length - M < s.n + sz then
        if s.buf.length + sz > MaxArenaSize then (none, s)
        else (some s.n, ⟨s.n + sz, s.buf ++ List.replicate
          (min (s.buf.length + max (min s.buf.length (10 <<< 20)) sz) MaxArenaSize
            - s.buf.length) 0⟩)
      else (some s.n, ⟨s.n + sz, s.buf⟩) := by
  have hMax : MaxArenaSize = 104857600 := by decide
  unfold Arena.allocate
  dsimp only
  by_cases h1 : sz > MaxArenaSize
  · rw [if_pos h1, if_pos (Or.inl h1)]
  rw [if_neg h1]
  have hsz : sz ≤ MaxArenaSize := not_lt.1 h1
  have e1 : (sz + s.n) % 2 ^ 32 = s.n + sz := by
    rw [hMax] at hC hsz
    omega
  have e2 : sub32 (s.n + sz) sz = s.n := by
    rw [hMax] at hC hsz
    unfold sub32
    omega
  have e3 : sub32 (s.buf.length % 2 ^ 32) M = s.buf.length - M := by
    rw [hMax] at hC
    unfold sub32
    omega
  rw [e1, e2, e3]
  by_cases h2 : s.n + sz > MaxArenaSize
  · rw [if_pos h2, if_pos (Or.inr h2)]
  rw [if_neg h2, if_neg (not_or.2 ⟨h1, h2⟩)]
  by_cases h3 : s.buf.length - M < s.n + sz
  · rw [if_pos h3, if_pos h3, grownBuf_eq hC hsz]
    by_cases h4 : s.buf.length + sz > MaxArenaSize
    · rw [if_pos h4, if_pos h4]
    · rw [if_neg h4, if_neg h4]
  · rw [if_neg h3, if_neg h3]

/-- What a successful `putNode` does: the allocation of the padded node size
succeeded, the arena is the one it leaves, and the result is its offset
rounded up. -/
theorem putNode_some {M L : Nat} {s : Arena} {height : Int} {r : Nat}
    (h : (s.putNode M L height).1 = some r) :
    ∃ o, (s.allocate M ((sub32 M ((offsetSize * sub32 L (toUint32 height)) % 2 ^ 32)
          + nodeAlign) % 2 ^ 32)).1 = some o ∧
      (s.putNode M L height).2 = (s.allocate M
        ((sub32 M ((offsetSize * sub32 L (toUint32 height)) % 2 ^ 32) + nodeAlign) % 2 ^ 32)).2 ∧
      r = ((o + nodeAlign) % 2 ^ 32) &&& (2 ^ 32 - 1 - nodeAlign) := by
  unfold Arena.putNode at h ⊢
  dsimp only at h ⊢
  rcases hr : s.allocate M
      ((sub32 M ((offsetSize * sub32 L (toUint32 height)) % 2 ^ 32) + nodeAlign) % 2 ^ 32)
    with ⟨_ | o, s1⟩
  · rw [hr] at h
    cases h
  · rw [hr] at h
    dsimp only at h ⊢
    exact ⟨o, rfl, rfl, (Option.some.inj h).symm⟩

theorem and_not_nodeAlign_eq (x : Nat) (hx : x < 2 ^ 32) :
    x &&& (2 ^ 32 - 1 - nodeAlign) = x / 8 * 8 := by
  have hc : 2 ^ 32 - 1 - nodeAlign = (2 ^ 29 - 1) <<< 3 := by decide
  have h8 : x / 8 * 8 = (x >>> 3) <<< 3 := by
    rw [Nat.shiftLeft_eq, Nat.shiftRight_eq_div_pow]
  rw [hc, h8]
  apply Nat.eq_of_testBit_eq
  intro i
  rw [Nat.testBit_and, Nat.testBit_shiftLeft, Nat.testBit_shiftLeft, Nat.testBit_shiftRight,
    Nat.testBit_two_pow_sub_one]
  by_cases h3 : i ≥ 3
  · have e : 3 + (i - 3) = i := by omega
    rw [e]
    by_cases h32 : i - 3 < 29
    · simp [h3, h32]
    · have hf : x.testBit i = false :=
        Nat.testBit_lt_two_pow (lt_of_lt_of_le hx (Nat.pow_le_pow_right (by norm_num) (by omega)))
      simp [hf]
  · simp [h3]

/-- The node size and the padded node size of `putNode` for a height from 1 to
`defaultMaxLevel`, when the subtraction does not underflow. -/
theorem putNode_size (M L : Nat) (height : Int) (h1 : 1 ≤ height) (h2 : height ≤ L)
    (hL : L < 2 ^ 32) (hnode : 4 * (L - height.toNat) ≤ M) (hM : M + 7 < 2 ^ 32) :
    (sub32 M ((offsetSize * sub32 L (toUint32 height)) % 2 ^ 32) + nodeAlign) % 2 ^ 32 =
      M - 4 * (L - height.toNat) + 7 := by
  have e1 : toUint32 height = height.toNat := by
    unfold toUint32
    omega
  have e2 : sub32 L height.toNat = L - height.toNat := by
    unfold sub32
    omega
  have e3 : sub32 M ((4 * (L - height.toNat)) % 2 ^ 32) = M - 4 * (L - height.toNat) := by
    unfold sub32
    omega
  have e4 : offsetSize = 4 := rfl
  have e5 : nodeAlign = 7 := rfl
  rw [e1, e2, e4, e3, e5]
  omega

/-- A successful `allocate` on an arena whose buffer length lies between
`MaxNodeSize` and `MaxArenaSize` and whose cursor is within the buffer: the
offset is the old cursor, the cursor advances by `sz`, and the buffer is kept
or receives zero bytes up to the new length. -/
theorem allocate_some_of_inv {M : Nat} {s : Arena} {sz off : Nat} (hM : M ≤ s.buf.length)
    (hC : s.buf.length ≤ MaxArenaSize) (hn : s.n ≤ s.buf.length)
    (h : (s.allocate M sz).1 = some off) :
    off = s.n ∧ (s.allocate M sz).2.n = s.n + sz ∧ s.n + sz ≤ MaxArenaSize ∧
      (s.buf.length - M < s.n + sz →
        s.buf.length + sz ≤ MaxArenaSize ∧
        (s.allocate M sz).2.buf = s.buf ++ List.replicate
          (min (s.buf.length + max (min s.buf.length (10 <<< 20)) sz) MaxArenaSize
            - s.buf.length) 0) ∧
      (¬ s.buf.length - M < s.n + sz → (s.allocate M sz).2.buf = s.buf) := by
  rw [allocate_eq_of_inv M s sz hM hC hn] at h ⊢
  by_cases h1 : sz > MaxArenaSize ∨ s.n + sz > MaxArenaSize
  · rw [if_pos h1] at h
    cases h
  rw [if_neg h1] at h ⊢
  have h1b : s.n + sz ≤ MaxArenaSize := by
    by_contra hc
    exact h1 (Or.inr (not_le.1 hc))
  by_cases h3 : s.buf.length - M < s.n + sz
  · rw [if_pos h3] at h ⊢
    by_cases h4 : s.buf.length + sz > MaxArenaSize
    · rw [if_pos h4] at h
      cases h
    · rw [if_neg h4] at h ⊢
      exact ⟨(Option.some.inj h).symm, rfl, h1b, fun _ => ⟨not_lt.1 h4, rfl⟩,
        fun hc => absurd h3 hc⟩
  · rw [if_neg h3] at h ⊢
    exact ⟨(Option.some.inj h).symm, rfl, h1b, fun hc => absurd hc h3, fun _ => rfl⟩

theorem grown_length (len sz : Nat) (hC : len ≤ MaxArenaSize) :
    len + (min (len + max (min len (10 <<< 20)) sz) MaxArenaSize - len) =
      min (len + max (min len (10 * 2 ^ 20)) sz) MaxArenaSize := by
  have h10 : 10 <<< 20 = 10 * 2 ^ 20 := by decide
  rw [h10]
  have : len ≤ min (len + max (min len (10 * 2 ^ 20)) sz) MaxArenaSize :=
    le_min (Nat.le_add_right _ _) hC
  omega

/-- The in-bounds predicate is kept by a successful `allocate`, and the region
it returns lies inside the new buffer. -/
theorem allocate_keeps_inv {M : Nat} {s : Arena} {sz off : Nat} (hi : arenaInv M s)
    (h : (s.allocate M sz).1 = some off) :
    arenaInv M (s.allocate M sz).2 ∧ off + sz ≤ (s.allocate M sz).2.buf.length := by
  obtain ⟨i1, i2, i3, i4⟩ := hi
  obtain ⟨e1, e2, e3, e4, e5⟩ := allocate_some_of_inv i3 i4 i2 h
  by_cases h3 : s.buf.length - M < s.n + sz
  · obtain ⟨e6, e7⟩ := e4 h3
    have hl : (s.allocate M sz).2.buf.length =
        min (s.buf.length + max (min s.buf.length (10 * 2 ^ 20)) sz) MaxArenaSize := by
      rw [e7, List.length_append, List.length_replicate, grown_length _ _ i4]
    have hge : s.buf.length + sz ≤ (s.allocate M sz).2.buf.length := by
      rw [hl]
      exact le_min (Nat.add_le_add_left (le_max_right _ _) _) e6
    have hle : (s.allocate M sz).2.buf.length ≤ MaxArenaSize := by
      rw [hl]
      exact min_le_right _ _
    unfold arenaInv
    rw [e2, e1]
    omega
  · have e6 := e5 h3
    unfold arenaInv
    rw [e2, e1, e6]
    omega

/-- A successful `putKey` writes in place: the buffer keeps the length that
its allocation left. -/
theorem putKey_length {M : Nat} {s : Arena} {key : List Nat} {off : Nat}
    (h : (s.putKey M key).1 = some off) :
    (s.putKey M key).2.buf.length = (s.allocate M (key.length % 2 ^ 32)).2.buf.length := by
  obtain ⟨-, h2, -, h4⟩ := putKey_some h
  rw [h4]
  simp only [List.length_append, List.length_take, List.length_drop]
  omega

/-- The calls `putKey` and `putNode` leave the cursor where their `allocate`
leaves it, whether they return or panic. -/
theorem putKey_cursor (M : Nat) (s : Arena) (key : List Nat) :
    (s.putKey M key).2.n = (s.allocate M (key.length % 2 ^ 32)).2.n := by
  unfold Arena.putKey
  dsimp only
  rcases s.allocate M (key.length % 2 ^ 32) with ⟨_ | o, s1⟩
  · rfl
  · dsimp only
    split_ifs <;> rfl

theorem putNode_cursor (M L : Nat) (s : Arena) (height : Int) :
    (s.putNode M L height).2.n = (s.allocate M
      ((sub32 M ((offsetSize * sub32 L (toUint32 height)) % 2 ^ 32) + nodeAlign) % 2 ^ 32)).2.n := by
  unfold Arena.putNode
  dsimp only
  rcases s.allocate M
      ((sub32 M ((offsetSize * sub32 L (toUint32 height)) % 2 ^ 32) + nodeAlign) % 2 ^ 32)
    with ⟨_ | o, s1⟩ <;> rfl

theorem applyOp_cursor (M L : Nat) (s : Arena) (op : ArenaOp) (h1 : 1 ≤ s.n)
    (hn : s.n ≤ MaxArenaSize) :
    1 ≤ (applyOp M L s op).n ∧ (applyOp M L s op).n ≤ MaxArenaSize := by
  cases op with
  | allocate sz =>
    have h := allocate_cursor_le M s sz hn
    exact ⟨le_trans h1 h.1, h.2⟩
  | putKey key =>
    have h := allocate_cursor_le M s (key.length % 2 ^ 32) hn
    simp only [applyOp, putKey_cursor]
    exact ⟨le_trans h1 h.1, h.2⟩
  | putNode height =>
    have h := allocate_cursor_le M s
      ((sub32 M ((offsetSize * sub32 L (toUint32 height)) % 2 ^ 32) + nodeAlign) % 2 ^ 32) hn
    simp only [applyOp, putNode_cursor]
    exact ⟨le_trans h1 h.1, h.2⟩
  | store bytes =>
    simp only [applyOp]
    split_ifs
    · exact ⟨h1, hn⟩
    · exact ⟨h1, hn⟩

/-- In every arena state of the program, reached from `newArena` by calls of
`allocate`, `putKey` and `putNode` and writes in place, the cursor lies between
1 and `MaxArenaSize`. -/
theorem runOps_cursor (M L : Nat) (ops : List ArenaOp) :
    ∀ (s : Arena), 1 ≤ s.n → s.n ≤ MaxArenaSize →
      1 ≤ (runOps M L s ops).n ∧ (runOps M L s ops).n ≤ MaxArenaSize := by
  induction ops with
  | nil =>
    intro s h1 hn
    exact ⟨h1, hn⟩
  | cons op rest ih =>
    intro s h1 hn
    obtain ⟨g1, g2⟩ := applyOp_cursor M L s op h1 hn
    exact ih _ g1 g2

theorem reachable_cursor {M L : Nat} {n0 : Int} {a s : Arena} {ops : List ArenaOp}
    (h0 : newArena n0 = some a) (hs : runOps M L a ops = s) :
    1 ≤ s.n ∧ s.n ≤ MaxArenaSize := by
  have ha := newArena_cursor h0
  rw [← hs]
  exact runOps_cursor M L ops a (by omega) (by rw [ha]; decide)

/-- On an arena whose cursor is at most `MaxArenaSize`, `allocate` fails and
leaves the arena as it was when the size or the cursor plus the size exceeds
`MaxArenaSize`. -/
theorem allocate_none_of_exceeds (M : Nat) (s : Arena) (sz : Nat) (hn : s.n ≤ MaxArenaSize)
    (h : sz > MaxArenaSize ∨ s.n + sz > MaxArenaSize) :
    s.allocate M sz = (none, s) := by
  unfold Arena.allocate
  dsimp only
  by_cases h1 : sz > MaxArenaSize
  · rw [if_pos h1]
  rw [if_neg h1]
  have h2 : (sz + s.n) % 2 ^ 32 > MaxArenaSize := by
    have hMax : MaxArenaSize = 104857600 := by decide
    rw [hMax] at h h1 hn ⊢
    omega
  rw [if_pos h2]

/-- On an arena whose cursor is at most `MaxArenaSize`, a successful
`allocate` advances the cursor by exactly the reserved size, a successful
`putKey` or `putNode` does not decrease it, and none of the three decreases
the buffer length. -/
theorem monotone_of_cursor_le (M L : Nat) (s : Arena) (hn : s.n ≤ MaxArenaSize) :
    (∀ sz off, (s.allocate M sz).1 = some off →
        (s.allocate M sz).2.n = s.n + sz ∧
          s.buf.length ≤ (s.allocate M sz).2.buf.length) ∧
      (∀ key off, (s.putKey M key).1 = some off →
        s.n ≤ (s.putKey M key).2.n ∧ s.buf.length ≤ (s.putKey M key).2.buf.length) ∧
      (∀ height off, (s.putNode M L height).1 = some off →
        s.n ≤ (s.putNode M L height).2.n ∧
          s.buf.length ≤ (s.putNode M L height).2.buf.length) := by
  have halloc : ∀ sz off, (s.allocate M sz).1 = some off →
      (s.allocate M sz).2.n = s.n + sz ∧ s.buf.length ≤ (s.allocate M sz).2.buf.length := by
    intro sz off h
    obtain ⟨-, h2, -⟩ := allocate_some_of_le hn h
    obtain ⟨-, -, -, -, m, hm⟩ := allocate_some h
    refine ⟨h2, ?_⟩
    rw [hm, List.length_append]
    exact Nat.le_add_right _ _
  refine ⟨halloc, ?_, ?_⟩
  · intro key off h
    obtain ⟨h1, -, h3, -⟩ := putKey_some h
    obtain ⟨a1, a2⟩ := halloc _ _ h1
    rw [h3, putKey_length h, a1]
    exact ⟨Nat.le_add_right _ _, a2⟩
  · intro height off h
    obtain ⟨o, h1, h2, -⟩ := putNode_some h
    obtain ⟨a1, a2⟩ := halloc _ _ h1
    rw [h2, a1]
    exact ⟨Nat.le_add_right _ _, a2⟩

/-- On an arena whose cursor is at most `MaxArenaSize`, for a height from 1 to
`defaultMaxLevel`, a successful `putNode` advances the cursor by the node size
plus 7 and returns the least multiple of 8 at or above the old cursor, so that
the node ends at or before the new cursor. -/
theorem putNode_block_of_cursor_le (M L : Nat) (s : Arena) (height : Int) (r : Nat)
    (hn : s.n ≤ MaxArenaSize) (h1 : 1 ≤ height) (h2 : height ≤ L) (hL : L < 2 ^ 32)
    (hnode : 4 * (L - height.toNat) ≤ M) (hM : M + 7 < 2 ^ 32)
    (h : (s.putNode M L height).1 = some r) :
    (s.putNode M L height).2.n = s.n + (M - 4 * (L - height.toNat)) + 7 ∧
      r % 8 = 0 ∧ s.n ≤ r ∧ (∀ m, m % 8 = 0 → s.n ≤ m → r ≤ m) ∧
      r + (M - 4 * (L - height.toNat)) ≤ (s.putNode M L height).2.n := by
  obtain ⟨o, a1, a2, a3⟩ := putNode_some h
  rw [putNode_size M L height h1 h2 hL hnode hM] at a1 a2
  obtain ⟨b1, b2, b3⟩ := allocate_some_of_le hn a1
  have hMax : MaxArenaSize = 104857600 := by decide
  rw [hMax] at hn b3
  have e7 : nodeAlign = 7 := rfl
  have hmod : (o + nodeAlign) % 2 ^ 32 = s.n + 7 := by
    rw [b1, e7]
    omega
  rw [hmod, and_not_nodeAlign_eq _ (by omega)] at a3
  rw [a2, b2, a3]
  refine ⟨by omega, by omega, by omega, ?_, by omega⟩
  intro m hm1 hm2
  omega

/-! ## Theorems on the arena -/

/-- C2: on an arena created by `newArena`, in any sequence of `allocate` calls,
the range of a successful call ends at or before the offset returned by every
later successful call: `o_i + s_i ≤ o_j` for `i < j`. -/
theorem allocate_ranges_disjoint (M : Nat) (n0 : Int) (a : Arena) (sizes : List Nat)
    (i j oi si oj : Nat) (h0 : newArena n0 = some a) (hij : i < j)
    (hi : (allocateRun M a sizes).1[i]? = some (some oi)) (hs : sizes[i]? = some si)
    (hj : (allocateRun M a sizes).1[j]? = some (some oj)) : oi + si ≤ oj := by
  have hn : a.n ≤ MaxArenaSize := by
    rw [newArena_cursor h0]
    decide
  exact allocateRun_disjoint M sizes a hn i j oi si oj hij hi hs hj

/-- Witness of C2: three allocations of 8, 0 and 40 bytes on `newArena 64`
with a node size of 16; the first range `[1, 9)` ends before the third offset. -/
theorem allocate_ranges_disjoint_witness :
    newArena 64 = some ⟨1, List.replicate 64 0⟩ ∧
      (allocateRun 16 ⟨1, List.replicate 64 0⟩ [8, 0, 40]).1 = [some 1, some 9, some 9] ∧
      1 + 8 ≤ 9 :=
  ⟨by decide, by decide,
    allocate_ranges_disjoint 16 64 ⟨1, List.replicate 64 0⟩ [8, 0, 40] 0 2 1 8 9
      (by decide) (by decide) (by decide) (by decide) (by decide)⟩

/-- C3: on an arena created by `newArena`, every offset returned by an
`allocate` call of any sequence of calls, of any sizes, is at least 1. -/
theorem allocate_offset_pos (M : Nat) (n0 : Int) (a : Arena) (sizes : List Nat) (o : Nat)
    (h0 : newArena n0 = some a) (ho : some o ∈ (allocateRun M a sizes).1) : 1 ≤ o := by
  have hn : a.n ≤ MaxArenaSize := by
    rw [newArena_cursor h0]
    decide
  have := allocateRun_ge M sizes a hn o ho
  rw [newArena_cursor h0] at this
  exact this

/-- Witness of C3: the first call on `newArena 64`, of size 0, returns offset 1. -/
theorem allocate_offset_pos_witness :
    newArena 64 = some ⟨1, List.replicate 64 0⟩ ∧
      some 1 ∈ (allocateRun 16 ⟨1, List.replicate 64 0⟩ [0, 8]).1 ∧ 1 ≤ 1 :=
  ⟨by decide, by decide,
    allocate_offset_pos 16 64 ⟨1, List.replicate 64 0⟩ [0, 8] 1 (by decide) (by decide)⟩

/-- C4: on an arena whose cursor is at most its buffer length and whose buffer
length is between `MaxNodeSize` and `MaxArenaSize`, when `putKey` of a key of
at most 65535 bytes succeeds, `getKey` at the returned offset with the key's
length returns exactly the key. -/
theorem putKey_getKey_roundtrip (M : Nat) (s : Arena) (key : List Nat) (off : Nat)
    (hn : s.n ≤ s.buf.length) (hM : M ≤ s.buf.length) (hb : s.buf.length ≤ MaxArenaSize)
    (hk : key.length ≤ 65535) (h : (s.putKey M key).1 = some off) :
    (s.putKey M key).2.getKey off key.length = some key := by
  obtain ⟨h1, h2, -, h4⟩ := putKey_some h
  obtain ⟨e1, -, e3⟩ := allocate_some_of_le (le_trans hn hb) h1
  have hMax : MaxArenaSize = 104857600 := by decide
  have hk32 : key.length % 2 ^ 32 = key.length := Nat.mod_eq_of_lt (by omega)
  rw [hk32, hMax] at e3
  have hhi : (off + key.length % 2 ^ 16) % 2 ^ 32 = off + key.length := by omega
  have hlen : (s.putKey M key).2.buf.length =
      (s.allocate M (key.length % 2 ^ 32)).2.buf.length := by
    rw [h4]
    simp only [List.length_append, List.length_take, List.length_drop]
    omega
  unfold Arena.getKey
  dsimp only
  rw [hhi, hlen, if_neg (by omega), h4]
  have htake : ((s.allocate M (key.length % 2 ^ 32)).2.buf.take off).length = off := by
    rw [List.length_take]
    omega
  rw [List.drop_left' htake, Nat.add_sub_cancel_left, List.take_left]

/-- Witness of C4: the key `[7, 8, 9]` put into `newArena 64` (node size 16)
lands at offset 1 and is read back. -/
theorem putKey_getKey_roundtrip_witness :
    (Arena.putKey 16 ⟨1, List.replicate 64 0⟩ [7, 8, 9]).1 = some 1 ∧
      (Arena.putKey 16 ⟨1, List.replicate 64 0⟩ [7, 8, 9]).2.getKey 1 3 = some [7, 8, 9] :=
  ⟨by decide,
    putKey_getKey_roundtrip 16 ⟨1, List.replicate 64 0⟩ [7, 8, 9] 1
      (by decide) (by decide) (by decide) (by decide) (by decide)⟩

/-- C5: on an arena whose cursor (a `uint32`) is at most its buffer length and
whose buffer length is at least `MaxNodeSize`, every region `[o, o + l)` that
ends at or before the cursor holds the same bytes after a successful
`allocate` and after a successful `putKey` as before the call, whether or not
the call grows the buffer. -/
theorem growth_and_writes_preserve (M : Nat) (s : Arena) (o l : Nat)
    (hw : s.n < 2 ^ 32) (hn : s.n ≤ s.buf.length) (hM : M ≤ s.buf.length)
    (hol : o + l ≤ s.n) :
    (∀ sz off, (s.allocate M sz).1 = some off →
        ((s.allocate M sz).2.buf.drop o).take l = (s.buf.drop o).take l) ∧
      (∀ key off, (s.putKey M key).1 = some off →
        ((s.putKey M key).2.buf.drop o).take l = (s.buf.drop o).take l) := by
  constructor
  · intro sz off h
    obtain ⟨-, -, -, -, m, hm⟩ := allocate_some h
    refine slice_eq_of_take_eq ?_ hol
    rw [hm, List.take_append_of_le_length hn]
  · intro key off h
    obtain ⟨h1, h2, -, h4⟩ := putKey_some h
    obtain ⟨a1, -, a3, -, m, hm⟩ := allocate_some h1
    have hoff : off = s.n := by
      rw [a3, sub32_add_mod s.n _ hw (Nat.mod_lt _ (by norm_num))]
    refine slice_eq_of_take_eq ?_ hol
    rw [h4, hoff]
    have hle : s.n ≤ (s.allocate M (key.length % 2 ^ 32)).2.buf.length := by omega
    have htake : ((s.allocate M (key.length % 2 ^ 32)).2.buf.take s.n).length = s.n := by
      rw [List.length_take]
      omega
    rw [List.take_append_of_le_length (le_of_eq htake.symm), List.take_take, min_self, hm,
      List.take_append_of_le_length hn]

/-- Witness of C5: an arena of 16 bytes holding `[1, 2, 3]` at offset 1, node
size 16: `allocate 40` and `putKey` of a 20-byte key both grow the buffer and
keep the region `[1, 4)`. -/
theorem growth_and_writes_preserve_witness :
    (Arena.allocate 16 ⟨4, [0, 1, 2, 3, 0, 0, 0, 0, 0, 0, 0, 0, 0, 0, 0, 0]⟩ 40).2.buf.length
        = 56 ∧
      (∀ sz off,
        (Arena.allocate 16 ⟨4, [0, 1, 2, 3, 0, 0, 0, 0, 0, 0, 0, 0, 0, 0, 0, 0]⟩ sz).1
            = some off →
          ((Arena.allocate 16 ⟨4, [0, 1, 2, 3, 0, 0, 0, 0, 0, 0, 0, 0, 0, 0, 0, 0]⟩
              sz).2.buf.drop 1).take 3 = [1, 2, 3]) ∧
      (∀ key off,
        (Arena.putKey 16 ⟨4, [0, 1, 2, 3, 0, 0, 0, 0, 0, 0, 0, 0, 0, 0, 0, 0]⟩ key).1
            = some off →
          ((Arena.putKey 16 ⟨4, [0, 1, 2, 3, 0, 0, 0, 0, 0, 0, 0, 0, 0, 0, 0, 0]⟩
              key).2.buf.drop 1).take 3 = [1, 2, 3]) :=
  ⟨by decide,
    growth_and_writes_preserve 16 ⟨4, [0, 1, 2, 3, 0, 0, 0, 0, 0, 0, 0, 0, 0, 0, 0, 0]⟩ 1 3
      (by decide) (by decide) (by decide) (by decide)⟩

/-- C6: in every arena state, reached from `newArena` by any calls of
`allocate`, `putKey` and `putNode` and writes in place, and for every size: if
the size exceeds `MaxArenaSize`, or the cursor plus the size does, `allocate`
fails, returns no offset and leaves the cursor and the buffer exactly as they
were. -/
theorem allocate_fails_beyond_max (M L : Nat) (n0 : Int) (a : Arena) (ops : List ArenaOp)
    (s : Arena) (sz : Nat) (h0 : newArena n0 = some a) (hs : runOps M L a ops = s)
    (h : sz > MaxArenaSize ∨ s.n + sz > MaxArenaSize) :
    s.allocate M sz = (none, s) :=
  allocate_none_of_exceeds M s sz (reachable_cursor h0 hs).2 h

/-- Witness of C6: after `allocate 8` and `putKey [1, 2, 3]` on `newArena 32`
(node size 16) the cursor is 12, and a request of `MaxArenaSize - 11` bytes
fails and leaves the arena as it was. -/
theorem allocate_fails_beyond_max_witness :
    newArena 32 = some ⟨1, List.replicate 32 0⟩ ∧
      (runOps 16 4 ⟨1, List.replicate 32 0⟩
        [ArenaOp.allocate 8, ArenaOp.putKey [1, 2, 3]]).n = 12 ∧
      Arena.allocate 16
          (runOps 16 4 ⟨1, List.replicate 32 0⟩
            [ArenaOp.allocate 8, ArenaOp.putKey [1, 2, 3]]) (MaxArenaSize - 11) =
        (none, runOps 16 4 ⟨1, List.replicate 32 0⟩
          [ArenaOp.allocate 8, ArenaOp.putKey [1, 2, 3]]) :=
  ⟨by decide, by decide,
    allocate_fails_beyond_max 16 4 32 ⟨1, List.replicate 32 0⟩
      [ArenaOp.allocate 8, ArenaOp.putKey [1, 2, 3]] _ (MaxArenaSize - 11)
      (by decide) rfl (Or.inr (by decide))⟩

/-- C7: for every height from 1 to `defaultMaxLevel`, the offset returned by a
successful `putNode` is a multiple of 8. -/
theorem putNode_offset_aligned (M L : Nat) (s : Arena) (height : Int) (off : Nat)
    (h1 : 1 ≤ height) (h2 : height ≤ L) (h : (s.putNode M L height).1 = some off) :
    off % 8 = 0 := by
  unfold Arena.putNode at h
  dsimp only at h
  rcases hr : s.allocate M
      ((sub32 M ((offsetSize * sub32 L (toUint32 height)) % 2 ^ 32) + nodeAlign) % 2 ^ 32)
    with ⟨_ | o, s1⟩
  · rw [hr] at h
    cases h
  · rw [hr] at h
    dsimp only at h
    rw [← Option.some.inj h]
    exact and_not_nodeAlign_mod _

/-- Witness of C7: a node of height 3 of 4 in an arena of 80 bytes, node size
32: the raw offset 1 is rounded up to 8. -/
theorem putNode_offset_aligned_witness :
    (Arena.putNode 32 4 ⟨1, List.replicate 80 0⟩ 3).1 = some 8 ∧ 8 % 8 = 0 :=
  ⟨by decide,
    putNode_offset_aligned 32 4 ⟨1, List.replicate 80 0⟩ 3 8
      (by decide) (by decide) (by decide)⟩

/-- C8, the behaviour of the code: on `newArena(16)` with any `MaxNodeSize`
above 16, of ten `putKey` calls with 8-byte keys the first returns offset 1
without growing the buffer and the second fails, the buffer never having
grown. -/
theorem putKey_tiny_arena_fails (M : Nat) (keys : List (List Nat)) (hM : 16 < M)
    (hM32 : M < 2 ^ 32) (hlen : keys.length = 10) (h8 : ∀ k ∈ keys, k.length = 8) :
    ∃ a, newArena 16 = some a ∧ (putKeyRun M a keys).1[0]? = some (some 1) ∧
      (putKeyRun M a keys).1[1]? = some none ∧
      ∀ k1 ∈ keys.head?, (a.putKey M k1).2.buf.length = 16 := by
  refine ⟨⟨1, List.replicate 16 0⟩, by decide, ?_⟩
  match keys, hlen, h8 with
  | k1 :: k2 :: rest, _, h8 =>
    have hk1 : k1.length = 8 := h8 k1 (by simp)
    have hk2 : k2.length = 8 := h8 k2 (by simp)
    obtain ⟨a1, a2, a3⟩ := putKey_tiny_no_growth M ⟨1, List.replicate 16 0⟩ k1 hM hM32
      (by decide) (by decide) hk1
    obtain ⟨b1, -, -⟩ := putKey_tiny_no_growth M
      (Arena.putKey M ⟨1, List.replicate 16 0⟩ k1).2 k2 hM hM32 a3 (by rw [a2]) hk2
    refine ⟨?_, ?_, ?_⟩
    · simp only [putKeyRun, List.getElem?_cons_zero]
      rw [a1]
      rfl
    · simp only [putKeyRun, List.getElem?_cons_succ, List.getElem?_cons_zero]
      rw [b1, a2]
      rfl
    · intro k hk
      simp only [List.head?_cons, Option.mem_def, Option.some.injEq] at hk
      rw [← hk]
      exact a3

/-- Witness of C8: a node size of 208 bytes and the ten keys
`[i, i, i, i, i, i, i, i]`. -/
theorem putKey_tiny_arena_fails_witness :
    ∃ a, newArena 16 = some a ∧
      (putKeyRun 208 a ((List.range 10).map fun i => List.replicate 8 i)).1[0]?
        = some (some 1) ∧
      (putKeyRun 208 a ((List.range 10).map fun i => List.replicate 8 i)).1[1]?
        = some none ∧
      ∀ k1 ∈ ((List.range 10).map fun i => List.replicate 8 i).head?,
        (a.putKey 208 k1).2.buf.length = 16 :=
  putKey_tiny_arena_fails 208 ((List.range 10).map fun i => List.replicate 8 i)
    (by decide) (by decide) (by decide) (by decide)

/-- C13: in every arena state, reached from `newArena` by any calls of
`allocate`, `putKey` and `putNode` and writes in place, a successful `allocate`
advances the cursor by exactly the reserved size, a successful `putKey` or
`putNode` does not decrease it, and none of the three decreases the buffer
length. -/
theorem arena_monotone (M L : Nat) (n0 : Int) (a : Arena) (ops : List ArenaOp) (s : Arena)
    (h0 : newArena n0 = some a) (hs : runOps M L a ops = s) :
    (∀ sz off, (s.allocate M sz).1 = some off →
        (s.allocate M sz).2.n = s.n + sz ∧
          s.buf.length ≤ (s.allocate M sz).2.buf.length) ∧
      (∀ key off, (s.putKey M key).1 = some off →
        s.n ≤ (s.putKey M key).2.n ∧ s.buf.length ≤ (s.putKey M key).2.buf.length) ∧
      (∀ height off, (s.putNode M L height).1 = some off →
        s.n ≤ (s.putNode M L height).2.n ∧
          s.buf.length ≤ (s.putNode M L height).2.buf.length) :=
  monotone_of_cursor_le M L s (reachable_cursor h0 hs).2

/-- Witness of C13: `newArena 16` with node size 16 reaches cursor 4 by
`putKey [1, 2, 3]`, which grows the buffer to 32 bytes; `allocate 40` then
moves the cursor to 44 and grows the buffer again. -/
theorem arena_monotone_witness :
    newArena 16 = some ⟨1, List.replicate 16 0⟩ ∧
      (Arena.allocate 16 (runOps 16 4 ⟨1, List.replicate 16 0⟩ [ArenaOp.putKey [1, 2, 3]])
        40).1 = some 4 ∧
      (Arena.allocate 16 (runOps 16 4 ⟨1, List.replicate 16 0⟩ [ArenaOp.putKey [1, 2, 3]])
          40).2.n =
        (runOps 16 4 ⟨1, List.replicate 16 0⟩ [ArenaOp.putKey [1, 2, 3]]).n + 40 ∧
      (runOps 16 4 ⟨1, List.replicate 16 0⟩ [ArenaOp.putKey [1, 2, 3]]).buf.length ≤
        (Arena.allocate 16 (runOps 16 4 ⟨1, List.replicate 16 0⟩ [ArenaOp.putKey [1, 2, 3]])
          40).2.buf.length :=
  ⟨by decide, by decide,
    (arena_monotone 16 4 16 ⟨1, List.replicate 16 0⟩ [ArenaOp.putKey [1, 2, 3]] _
      (by decide) rfl).1 40 4 (by decide)⟩

/-- C16: on an arena with `MaxNodeSize ≤ capacity ≤ MaxArenaSize` and the
cursor within the capacity, `allocate` fails exactly when the size exceeds
`MaxArenaSize`, or the cursor plus the size does, or the buffer must grow and
the capacity plus the size exceeds `MaxArenaSize`. -/
theorem allocate_fails_iff (M : Nat) (s : Arena) (sz : Nat) (hM : M ≤ s.buf.length)
    (hC : s.buf.length ≤ MaxArenaSize) (hn : s.n ≤ s.buf.length) :
    (s.allocate M sz).1 = none ↔
      (sz > MaxArenaSize ∨ s.n + sz > MaxArenaSize ∨
        (s.buf.length - M < s.n + sz ∧ s.buf.length + sz > MaxArenaSize)) := by
  rw [allocate_eq_of_inv M s sz hM hC hn]
  by_cases h1 : sz > MaxArenaSize
  · rw [if_pos (Or.inl h1)]
    exact ⟨fun _ => Or.inl h1, fun _ => rfl⟩
  by_cases h2 : s.n + sz > MaxArenaSize
  · rw [if_pos (Or.inr h2)]
    exact ⟨fun _ => Or.inr (Or.inl h2), fun _ => rfl⟩
  rw [if_neg (not_or.2 ⟨h1, h2⟩)]
  by_cases h3 : s.buf.length - M < s.n + sz
  · rw [if_pos h3]
    by_cases h4 : s.buf.length + sz > MaxArenaSize
    · rw [if_pos h4]
      exact ⟨fun _ => Or.inr (Or.inr ⟨h3, h4⟩), fun _ => rfl⟩
    · rw [if_neg h4]
      constructor
      · intro h
        cases h
      · rintro (h | h | ⟨-, h⟩)
        · exact absurd h h1
        · exact absurd h h2
        · exact absurd h h4
  · rw [if_neg h3]
    constructor
    · intro h
      cases h
    · rintro (h | h | ⟨h, -⟩)
      · exact absurd h h1
      · exact absurd h h2
      · exact absurd h h3

/-- Witness of C16: capacity 32, node size 16, cursor 1: a request of
`MaxArenaSize - 16` bytes fits below `MaxArenaSize` with the cursor but not
with the capacity, and fails. -/
theorem allocate_fails_iff_witness :
    (Arena.allocate 16 ⟨1, List.replicate 32 0⟩ (MaxArenaSize - 16)).1 = none ↔
      (MaxArenaSize - 16 > MaxArenaSize ∨ 1 + (MaxArenaSize - 16) > MaxArenaSize ∨
        ((List.replicate 32 0).length - 16 < 1 + (MaxArenaSize - 16) ∧
          (List.replicate 32 0).length + (MaxArenaSize - 16) > MaxArenaSize)) :=
  allocate_fails_iff 16 ⟨1, List.replicate 32 0⟩ (MaxArenaSize - 16)
    (by decide) (by decide) (by decide)

/-- C17: on an arena with `MaxNodeSize ≤ capacity ≤ MaxArenaSize` and the
cursor within the capacity, a successful `allocate` keeps the buffer length
when `capacity - MaxNodeSize ≥ cursor + size`, and otherwise makes it
`min (capacity + max (min capacity 10 MiB) size) MaxArenaSize`. -/
theorem allocate_growth_policy (M : Nat) (s : Arena) (sz off : Nat) (hM : M ≤ s.buf.length)
    (hC : s.buf.length ≤ MaxArenaSize) (hn : s.n ≤ s.buf.length)
    (h : (s.allocate M sz).1 = some off) :
    (s.buf.length - M ≥ s.n + sz → (s.allocate M sz).2.buf.length = s.buf.length) ∧
      (s.buf.length - M < s.n + sz → (s.allocate M sz).2.buf.length =
        min (s.buf.length + max (min s.buf.length (10 * 2 ^ 20)) sz) MaxArenaSize) := by
  obtain ⟨-, -, -, e4, e5⟩ := allocate_some_of_inv hM hC hn h
  constructor
  · intro h3
    rw [e5 (not_lt.2 h3)]
  · intro h3
    rw [(e4 h3).2, List.length_append, List.length_replicate, grown_length _ _ hC]

/-- Witness of C17: capacity 16, node size 16, cursor 4: `allocate 40` grows
the buffer to `16 + max (min 16 10 MiB) 40 = 56` bytes. -/
theorem allocate_growth_policy_witness :
    (Arena.allocate 16 ⟨4, List.replicate 16 0⟩ 40).1 = some 4 ∧
      (Arena.allocate 16 ⟨4, List.replicate 16 0⟩ 40).2.buf.length = 56 ∧
      min ((List.replicate 16 0).length + max (min (List.replicate 16 0).length (10 * 2 ^ 20)) 40)
        MaxArenaSize = 56 :=
  ⟨by decide,
    ((allocate_growth_policy 16 ⟨4, List.replicate 16 0⟩ 40 4 (by decide) (by decide)
      (by decide) (by decide)).2 (by decide)).trans (by decide),
    by decide⟩

/-- C18: in every arena state, reached from `newArena` by any calls of
`allocate`, `putKey` and `putNode` and writes in place, for a height from 1 to
`defaultMaxLevel` (the two constants, parameters here, being such that the
node size `MaxNodeSize - 4 * (defaultMaxLevel - height)` does not underflow
and `MaxNodeSize + 7` fits a `uint32`), a successful `putNode` advances the
cursor by the node size plus 7 and returns the least multiple of 8 at or above
the old cursor, so that the node ends at or before the new cursor. -/
theorem putNode_block_contained (M L : Nat) (n0 : Int) (a : Arena) (ops : List ArenaOp)
    (s : Arena) (height : Int) (r : Nat) (h0 : newArena n0 = some a)
    (hs : runOps M L a ops = s) (h1 : 1 ≤ height) (h2 : height ≤ L) (hL : L < 2 ^ 32)
    (hnode : 4 * (L - height.toNat) ≤ M) (hM : M + 7 < 2 ^ 32)
    (h : (s.putNode M L height).1 = some r) :
    (s.putNode M L height).2.n = s.n + (M - 4 * (L - height.toNat)) + 7 ∧
      r % 8 = 0 ∧ s.n ≤ r ∧ (∀ m, m % 8 = 0 → s.n ≤ m → r ≤ m) ∧
      r + (M - 4 * (L - height.toNat)) ≤ (s.putNode M L height).2.n :=
  putNode_block_of_cursor_le M L s height r (reachable_cursor h0 hs).2 h1 h2 hL hnode hM h

/-- Witness of C18: node size 32, 4 levels; `newArena 80` reaches cursor 4 by
`putKey [1, 2, 3]`; `putNode 3` puts its node of 28 bytes at offset 8 and moves
the cursor to `4 + 28 + 7 = 39`. -/
theorem putNode_block_contained_witness :
    newArena 80 = some ⟨1, List.replicate 80 0⟩ ∧
      (runOps 32 4 ⟨1, List.replicate 80 0⟩ [ArenaOp.putKey [1, 2, 3]]).n = 4 ∧
      (Arena.putNode 32 4 (runOps 32 4 ⟨1, List.replicate 80 0⟩ [ArenaOp.putKey [1, 2, 3]])
        3).1 = some 8 ∧
      (Arena.putNode 32 4 (runOps 32 4 ⟨1, List.replicate 80 0⟩ [ArenaOp.putKey [1, 2, 3]])
          3).2.n =
        (runOps 32 4 ⟨1, List.replicate 80 0⟩ [ArenaOp.putKey [1, 2, 3]]).n
          + (32 - 4 * (4 - (3 : Int).toNat)) + 7 :=
  ⟨by decide, by decide, by decide,
    (putNode_block_contained 32 4 80 ⟨1, List.replicate 80 0⟩ [ArenaOp.putKey [1, 2, 3]] _ 3 8
      (by decide) rfl (by decide) (by decide) (by decide) (by decide) (by decide)
      (by decide)).1⟩

/-- C19: the predicate `1 ≤ cursor ≤ len(buf)` and
`MaxNodeSize ≤ len(buf) ≤ MaxArenaSize` is kept by every successful `allocate`,
`putKey` and `putNode`; the region `[offset, offset + size)` that `allocate`
returns lies inside the buffer after the call; and under the predicate the
`uint32` difference `len(buf) - MaxNodeSize` is the exact difference. -/
theorem arena_in_bounds (M L : Nat) (s : Arena) (hi : arenaInv M s) :
    (∀ sz off, (s.allocate M sz).1 = some off →
        arenaInv M (s.allocate M sz).2 ∧ off + sz ≤ (s.allocate M sz).2.buf.length) ∧
      (∀ key off, (s.putKey M key).1 = some off → arenaInv M (s.putKey M key).2) ∧
      (∀ height off, (s.putNode M L height).1 = some off →
        arenaInv M (s.putNode M L height).2) ∧
      sub32 (s.buf.length % 2 ^ 32) M = s.buf.length - M ∧ M ≤ s.buf.length % 2 ^ 32 := by
  refine ⟨fun sz off h => allocate_keeps_inv hi h, ?_, ?_, ?_⟩
  · intro key off h
    obtain ⟨h1, -, h3, -⟩ := putKey_some h
    have hk := (allocate_keeps_inv hi h1).1
    unfold arenaInv at hk ⊢
    rw [h3, putKey_length h]
    exact hk
  · intro height off h
    obtain ⟨o, h1, h2, -⟩ := putNode_some h
    rw [h2]
    exact (allocate_keeps_inv hi h1).1
  · obtain ⟨-, -, i3, i4⟩ := hi
    have hMax : MaxArenaSize = 104857600 := by decide
    rw [hMax] at i4
    unfold sub32
    omega

/-- Witness of C19: the arena of 16 bytes with the cursor at 4 and node size 16
satisfies the predicate, `allocate 40` grows it, and the predicate holds again
with the region `[4, 44)` inside the new buffer. -/
theorem arena_in_bounds_witness :
    arenaInv 16 ⟨4, List.replicate 16 0⟩ ∧
      (Arena.allocate 16 ⟨4, List.replicate 16 0⟩ 40).1 = some 4 ∧
      arenaInv 16 (Arena.allocate 16 ⟨4, List.replicate 16 0⟩ 40).2 ∧
      4 + 40 ≤ (Arena.allocate 16 ⟨4, List.replicate 16 0⟩ 40).2.buf.length :=
  ⟨by decide, by decide,
    (arena_in_bounds 16 4 ⟨4, List.replicate 16 0⟩ (by decide)).1 40 4 (by decide)⟩

/-! ## Lemmas on the filter -/

theorem wrapInt64_range (x : Int) : -2 ^ 63 ≤ wrapInt64 x ∧ wrapInt64 x < 2 ^ 63 := by
  unfold wrapInt64
  omega

theorem wrapInt64_of_range {x : Int} (h1 : -2 ^ 63 ≤ x) (h2 : x < 2 ^ 63) :
    wrapInt64 x = x := by
  unfold wrapInt64
  omega

/-- A non-negative `nBytes` is at least 8: the bit count is at least 64, and
the sum `nBits + 7` is negative when it overflows. -/
theorem filterBytes_ge (keyLen : Nat) (bitsPerKey : Int)
    (h : 0 ≤ filterBytes keyLen bitsPerKey) : 8 ≤ filterBytes keyLen bitsPerKey := by
  unfold filterBytes at h ⊢
  dsimp only at h ⊢
  have hX := wrapInt64_range ((if bitsPerKey < 0 then 0 else bitsPerKey) * (keyLen : Int))
  generalize wrapInt64 ((if bitsPerKey < 0 then 0 else bitsPerKey) * (keyLen : Int)) = X
    at h hX ⊢
  generalize hN : (if X < 64 then 64 else X) = N at h ⊢
  have hN1 : 64 ≤ N ∧ N < 2 ^ 63 := by
    rw [← hN]
    split_ifs <;> omega
  by_cases hov : N + 7 < 2 ^ 63
  · rw [wrapInt64_of_range (by omega) hov, Int.tdiv_eq_ediv (by omega) (by norm_num)] at h ⊢
    omega
  · exfalso
    have hW : wrapInt64 (N + 7) = -(2 ^ 64 - (N + 7)) := by
      unfold wrapInt64
      omega
    rw [hW, Int.neg_tdiv, Int.tdiv_eq_ediv (by omega) (by norm_num)] at h
    omega

theorem posInFilter_eq (f : Filter) (n h : Nat) (hlen : f.length = n + 1) (hn : 0 < n)
    (h32 : 8 * n < 2 ^ 32) :
    posInFilter h ((f.length : Int) - 1) = some (h % (8 * n) / 8, h % (8 * n) % 8) := by
  have e : toUint32 (wrapInt64 (((f.length : Int) - 1) * 8)) = 8 * n := by
    unfold toUint32 wrapInt64
    rw [hlen]
    push_cast
    omega
  unfold posInFilter
  dsimp only
  rw [e, if_neg (by omega)]

theorem shiftRight_and_one (b y : Nat) : (b >>> y) &&& 1 = 1 ↔ b.testBit y = true := by
  rw [Nat.and_one_is_mod, Nat.shiftRight_eq_div_pow, Nat.testBit_to_div_mod]
  simp

theorem get_of_bitAt {f : Filter} {n h : Nat} (hlen : f.length = n + 1) (hn : 0 < n)
    (h32 : 8 * n < 2 ^ 32) (hb : bitAt f n h) : f.get h = some 1 := by
  obtain ⟨b, hb1, hb2⟩ := hb
  unfold Filter.get
  rw [posInFilter_eq f n h hlen hn h32]
  dsimp only
  rw [hb1]
  dsimp only
  rw [(shiftRight_and_one b _).2 hb2]

theorem testBit_setBit (b y i : Nat) (hy : y < 8) (hi : i < 8)
    (h : i = y ∨ b.testBit i = true) : ((b ||| 1 <<< y) % 256).testBit i = true := by
  have e : (256 : Nat) = 2 ^ 8 := by norm_num
  rw [e, Nat.testBit_mod_two_pow, Nat.testBit_or, Nat.testBit_shiftLeft]
  rcases h with h | h
  · subst h
    simp [hi]
  · simp [hi, h]

/-- The call of `Filter.set` on a filter with a bit array of `n` bytes: it returns, keeps
the length and the trailing byte, sets the addressed bit and clears none. -/
theorem set_spec {f : Filter} {n : Nat} (h : Nat) (hlen : f.length = n + 1) (hn : 0 < n)
    (h32 : 8 * n < 2 ^ 32) :
    ∃ g, f.set h = some g ∧ g.length = n + 1 ∧ bitAt g n h ∧
      (∀ h1, bitAt f n h1 → bitAt g n h1) ∧ g[n]? = f[n]? := by
  have hm := Nat.mod_lt h (show 0 < 8 * n by omega)
  have hx : h % (8 * n) / 8 < f.length := by omega
  have hy : h % (8 * n) % 8 < 8 := Nat.mod_lt _ (by norm_num)
  refine ⟨List.set f (h % (8 * n) / 8) ((f[h % (8 * n) / 8] ||| 1 <<< (h % (8 * n) % 8)) % 256),
    ?_, ?_, ?_, ?_, ?_⟩
  · unfold Filter.set
    rw [posInFilter_eq f n h hlen hn h32]
    dsimp only
    rw [List.getElem?_eq_getElem hx]
  · rw [List.length_set, hlen]
  · exact ⟨_, List.getElem?_set_self hx, testBit_setBit _ _ _ hy hy (Or.inl rfl)⟩
  · rintro h1 ⟨b, hb1, hb2⟩
    have hy1 : h1 % (8 * n) % 8 < 8 := Nat.mod_lt _ (by norm_num)
    by_cases hxx : h % (8 * n) / 8 = h1 % (8 * n) / 8
    · refine ⟨_, ?_, testBit_setBit f[h % (8 * n) / 8] _ _ hy hy1 (Or.inr ?_)⟩
      · rw [← hxx]
        exact List.getElem?_set_self hx
      · rw [← hxx, List.getElem?_eq_getElem hx] at hb1
        rw [Option.some.inj hb1]
        exact hb2
    · exact ⟨b, by rw [List.getElem?_set_ne hxx]; exact hb1, hb2⟩
  · rw [List.getElem?_set_ne (by omega)]

theorem probesSet_mono {f g : Filter} {n delta : Nat}
    (hfg : ∀ h1, bitAt f n h1 → bitAt g n h1) :
    ∀ (j h : Nat), probesSet f n delta j h → probesSet g n delta j h := by
  intro j
  induction j with
  | zero =>
    intro h _
    trivial
  | succ j ih =>
    intro h hp
    exact ⟨hfg h hp.1, ih _ hp.2⟩

/-- The inner loop of `appendFilter` returns and leaves its `j` probes set. -/
theorem setProbes_spec {n : Nat} (delta : Nat) (hn : 0 < n) (h32 : 8 * n < 2 ^ 32) :
    ∀ (j : Nat) (f : Filter) (h : Nat), f.length = n + 1 →
      ∃ g, setProbes delta j f h = some g ∧ g.length = n + 1 ∧
        (∀ h1, bitAt f n h1 → bitAt g n h1) ∧ g[n]? = f[n]? ∧ probesSet g n delta j h := by
  intro j
  induction j with
  | zero =>
    intro f h hlen
    exact ⟨f, rfl, hlen, fun _ hb => hb, rfl, trivial⟩
  | succ j ih =>
    intro f h hlen
    obtain ⟨g1, e1, l1, b1, m1, k1⟩ := set_spec h hlen hn h32
    obtain ⟨g2, e2, l2, m2, k2, p2⟩ := ih g1 ((h + delta) % 2 ^ 32) l1
    refine ⟨g2, ?_, l2, fun h1 hb => m2 h1 (m1 h1 hb), by rw [k2, k1], m2 h b1, p2⟩
    simp only [setProbes, e1]
    exact e2

/-- The outer loop of `appendFilter` returns and leaves the probes of every
key set. -/
theorem addKeys_spec {n : Nat} (k : Nat) (hn : 0 < n) (h32 : 8 * n < 2 ^ 32) :
    ∀ (keys : List Nat) (f : Filter), f.length = n + 1 →
      ∃ g, addKeys k keys f = some g ∧ g.length = n + 1 ∧
        (∀ h1, bitAt f n h1 → bitAt g n h1) ∧ g[n]? = f[n]? ∧
        ∀ h ∈ keys, probesSet g n (hashDelta h) k h := by
  intro keys
  induction keys with
  | nil =>
    intro f hlen
    exact ⟨f, rfl, hlen, fun _ hb => hb, rfl, fun h hmem => absurd hmem (List.not_mem_nil h)⟩
  | cons key rest ih =>
    intro f hlen
    obtain ⟨g1, e1, l1, m1, k1, p1⟩ := setProbes_spec (hashDelta key) hn h32 k f key hlen
    obtain ⟨g2, e2, l2, m2, k2, p2⟩ := ih g1 l1
    refine ⟨g2, ?_, l2, fun h1 hb => m2 h1 (m1 h1 hb), by rw [k2, k1], ?_⟩
    · simp only [addKeys, e1]
      exact e2
    · intro h hmem
      rcases List.mem_cons.1 hmem with rfl | hmem
      · exact probesSet_mono m2 k h p1
      · exact p2 h hmem

theorem mayContainLoop_of_probesSet {f : Filter} {n delta : Nat} (hlen : f.length = n + 1)
    (hn : 0 < n) (h32 : 8 * n < 2 ^ 32) :
    ∀ (j h : Nat), probesSet f n delta j h → mayContainLoop f delta j h = some true := by
  intro j
  induction j with
  | zero =>
    intro h _
    rfl
  | succ j ih =>
    intro h hp
    simp only [mayContainLoop, get_of_bitAt hlen hn h32 hp.1]
    exact ih _ hp.2

/-- What `appendFilter` returns when `nBytes` is non-negative and the bit array
is shorter than `2 ^ 32` bits: a filter of `nBytes + 1` bytes whose last byte is
the probe count and in which the probes of every key are set. -/
theorem appendFilter_spec (cvt : Nat → Nat) (keys : List Nat) (bitsPerKey : Int)
    (h0 : 0 ≤ filterBytes keys.length bitsPerKey)
    (h32 : 8 * filterBytes keys.length bitsPerKey < 2 ^ 32) :
    ∃ f, appendFilter cvt keys bitsPerKey = some f ∧
      f.length = (filterBytes keys.length bitsPerKey).toNat + 1 ∧
      f.K = some (probeCount cvt bitsPerKey) ∧
      ∀ h ∈ keys, probesSet f (filterBytes keys.length bitsPerKey).toNat (hashDelta h)
        (probeCount cvt bitsPerKey) h := by
  have h8 := filterBytes_ge keys.length bitsPerKey h0
  generalize hB : filterBytes keys.length bitsPerKey = B at h0 h32 h8
  obtain ⟨n, rfl⟩ : ∃ n : Nat, B = n := ⟨B.toNat, by omega⟩
  have hn : 0 < n := by omega
  have hn32 : 8 * n < 2 ^ 32 := by omega
  have hlen0 : (List.replicate (((n : Int) + 1).toNat) 0 : Filter).length = n + 1 := by
    rw [List.length_replicate]
    omega
  obtain ⟨g, e, l, m, kk, p⟩ := addKeys_spec (probeCount cvt bitsPerKey) hn hn32 keys _ hlen0
  refine ⟨List.set g n (probeCount cvt bitsPerKey), ?_, ?_, ?_, ?_⟩
  · unfold appendFilter setIndex
    dsimp only
    rw [hB, if_neg (by omega), e]
    dsimp only
    rw [if_neg (by omega), Int.toNat_ofNat]
  · rw [List.length_set, l, Int.toNat_ofNat]
  · unfold Filter.K
    rw [List.length_set, l, if_neg (by omega), Nat.add_sub_cancel,
      List.getElem?_set_self (by omega)]
  · intro h hmem
    rw [Int.toNat_ofNat]
    refine probesSet_mono ?_ _ h (p h hmem)
    rintro h1 ⟨b, hb1, hb2⟩
    have hm := Nat.mod_lt h1 (show 0 < 8 * n by omega)
    exact ⟨b, by rw [List.getElem?_set_ne (by omega)]; exact hb1, hb2⟩

theorem set_length {f g : Filter} {h : Nat} (e : f.set h = some g) : g.length = f.length := by
  unfold Filter.set at e
  split at e
  · cases e
  · split at e
    · cases e
    · rw [← Option.some.inj e, List.length_set]

theorem setProbes_length (delta : Nat) :
    ∀ (j : Nat) (f g : Filter) (h : Nat), setProbes delta j f h = some g →
      g.length = f.length := by
  intro j
  induction j with
  | zero =>
    intro f g h e
    rw [← Option.some.inj e]
  | succ j ih =>
    intro f g h e
    simp only [setProbes] at e
    cases e1 : f.set h with
    | none =>
      rw [e1] at e
      cases e
    | some g1 =>
      rw [e1] at e
      rw [ih g1 g _ e, set_length e1]

theorem addKeys_length (k : Nat) :
    ∀ (keys : List Nat) (f g : Filter), addKeys k keys f = some g → g.length = f.length := by
  intro keys
  induction keys with
  | nil =>
    intro f g e
    rw [← Option.some.inj e]
  | cons key rest ih =>
    intro f g e
    simp only [addKeys] at e
    cases e1 : setProbes (hashDelta key) k f key with
    | none =>
      rw [e1] at e
      cases e
    | some g1 =>
      rw [e1] at e
      rw [ih g1 g e, setProbes_length _ _ _ _ _ e1]

/-- Every filter that `appendFilter` returns ends with the probe count. -/
theorem appendFilter_K {cvt : Nat → Nat} {keys : List Nat} {bitsPerKey : Int} {f : Filter}
    (h : appendFilter cvt keys bitsPerKey = some f) :
    f.K = some (probeCount cvt bitsPerKey) := by
  unfold appendFilter at h
  dsimp only at h
  generalize filterBytes keys.length bitsPerKey = B at h
  by_cases h1 : B + 1 < 0
  · rw [if_pos h1] at h
    cases h
  rw [if_neg h1] at h
  cases e : addKeys (probeCount cvt bitsPerKey) keys (List.replicate (B + 1).toNat 0) with
  | none =>
    rw [e] at h
    cases h
  | some g =>
    rw [e] at h
    dsimp only at h
    have hl := addKeys_length _ _ _ _ e
    rw [List.length_replicate] at hl
    unfold setIndex at h
    by_cases h2 : B < 0 ∨ (g.length : Int) ≤ B
    · rw [if_pos h2] at h
      cases h
    rw [if_neg h2] at h
    rw [← Option.some.inj h]
    unfold Filter.K
    have hB : B.toNat + 1 = g.length := by omega
    rw [List.length_set, if_neg (by omega), ← hB, Nat.add_sub_cancel,
      List.getElem?_set_self (by omega)]

theorem probeCount_range (cvt : Nat → Nat) (bitsPerKey : Int) :
    1 ≤ probeCount cvt bitsPerKey ∧ probeCount cvt bitsPerKey ≤ 30 := by
  unfold probeCount
  dsimp only
  split_ifs <;> omega

set_option maxRecDepth 100000 in
theorem truncMul069_small :
    ∀ b < 372, truncMul069 b < 256 ∧
      min 30 (max 1 (truncMul069 b)) = min 30 (max 1 (69 * b / 100)) := by
  decide

/-- Up to 371 bits per key the product stays below 256, the conversion to
`uint8` is exact, and the clamped probe count is the clamped integer part of
`bitsPerKey × 69 / 100`. -/
theorem probeCount_eq_truncated (cvt : Nat → Nat) (bitsPerKey : Int) (hb : bitsPerKey ≤ 371) :
    probeCount cvt bitsPerKey = truncatedProbeCount bitsPerKey := by
  have key : ∀ b : Nat, b < 372 → ∀ k : Nat, k = f64ToUint8 cvt (truncMul069 b) →
      ite (ite (k < 1) 1 k > 30) 30 (ite (k < 1) 1 k) = min 30 (max 1 (69 * b / 100)) := by
    intro b hb1 k hk
    obtain ⟨h1, h2⟩ := truncMul069_small b hb1
    unfold f64ToUint8 at hk
    rw [if_pos h1] at hk
    rw [← h2, ← hk]
    split_ifs <;> omega
  unfold probeCount truncatedProbeCount
  dsimp only
  by_cases hneg : bitsPerKey < 0
  · rw [if_pos hneg, max_eq_right (le_of_lt hneg)]
    exact key 0 (by norm_num) _ rfl
  · rw [if_neg hneg, max_eq_left (not_lt.1 hneg)]
    exact key bitsPerKey.toNat (by omega) _ rfl

theorem probeHash_eq (delta : Nat) :
    ∀ (i h : Nat), h < 2 ^ 32 → probeHash delta h i = (h + i * delta) % 2 ^ 32 := by
  intro i
  induction i with
  | zero =>
    intro h hh
    simp only [probeHash, Nat.zero_mul, Nat.add_zero]
    exact (Nat.mod_eq_of_lt hh).symm
  | succ i ih =>
    intro h _
    simp only [probeHash]
    rw [ih _ (Nat.mod_lt _ (by norm_num)), Nat.add_mul, Nat.one_mul, Nat.mod_add_mod]
    congr 1
    omega

theorem testBit_setBit_eq (b y i : Nat) (hi : i < 8) :
    ((b ||| 1 <<< y) % 256).testBit i = (b.testBit i || decide (i = y)) := by
  have e : (256 : Nat) = 2 ^ 8 := by norm_num
  rw [e, Nat.testBit_mod_two_pow, Nat.testBit_or, Nat.testBit_shiftLeft]
  rcases Nat.lt_trichotomy i y with hlt | heq | hgt
  · have h1 : ¬ i ≥ y := by omega
    have h2 : ¬ i = y := by omega
    simp [hi, h1, h2]
  · subst heq
    simp [hi]
  · have h2 : ¬ i = y := by omega
    have h3 : (1 : Nat).testBit (i - y) = false := by
      apply Nat.testBit_lt_two_pow
      calc 1 < 2 ^ 1 := by norm_num
        _ ≤ 2 ^ (i - y) := Nat.pow_le_pow_right (by norm_num) (by omega)
    simp [hi, h2, h3]

theorem pos_eq_iff (pos q : Nat) : pos = q ↔ (q / 8 = pos / 8 ∧ pos % 8 = q % 8) := by
  constructor
  · rintro rfl
    exact ⟨rfl, rfl⟩
  · rintro ⟨h1, h2⟩
    omega

/-- The bits of the filter after `Filter.set`: those set before and the one
addressed by `h`. -/
theorem set_bits {f g : Filter} {n : Nat} (h : Nat) (hlen : f.length = n + 1) (hn : 0 < n)
    (h32 : 8 * n < 2 ^ 32) (e : f.set h = some g) (pos : Nat) :
    bitIsSet g pos = true ↔ (bitIsSet f pos = true ∨ pos = h % (8 * n)) := by
  have hm := Nat.mod_lt h (show 0 < 8 * n by omega)
  have hx : h % (8 * n) / 8 < f.length := by omega
  unfold Filter.set at e
  rw [posInFilter_eq f n h hlen hn h32] at e
  dsimp only at e
  rw [List.getElem?_eq_getElem hx] at e
  dsimp only at e
  rw [← Option.some.inj e, pos_eq_iff pos (h % (8 * n))]
  unfold bitIsSet
  by_cases hxx : h % (8 * n) / 8 = pos / 8
  · rw [← hxx, List.getElem?_set_self hx, List.getElem?_eq_getElem hx]
    dsimp only
    rw [testBit_setBit_eq _ _ _ (Nat.mod_lt _ (by norm_num))]
    simp
  · rw [List.getElem?_set_ne hxx]
    constructor
    · intro hb
      exact Or.inl hb
    · rintro (hb | ⟨hc, -⟩)
      · exact hb
      · exact absurd hc hxx

/-- The bits of the filter after the inner loop of `appendFilter`: those set
before and the `j` probes. -/
theorem setProbes_bits {n : Nat} (delta : Nat) (hn : 0 < n) (h32 : 8 * n < 2 ^ 32) :
    ∀ (j : Nat) (f g : Filter) (h : Nat), f.length = n + 1 →
      setProbes delta j f h = some g → ∀ pos,
        (bitIsSet g pos = true ↔
          (bitIsSet f pos = true ∨ ∃ i, i < j ∧ pos = probeHash delta h i % (8 * n))) := by
  intro j
  induction j with
  | zero =>
    intro f g h _ e pos
    rw [← Option.some.inj e]
    constructor
    · intro hb
      exact Or.inl hb
    · rintro (hb | ⟨i, hi, -⟩)
      · exact hb
      · exact absurd hi (Nat.not_lt_zero i)
  | succ j ih =>
    intro f g h hlen e pos
    simp only [setProbes] at e
    cases e1 : f.set h with
    | none =>
      rw [e1] at e
      cases e
    | some g1 =>
      rw [e1] at e
      have l1 : g1.length = n + 1 := by rw [set_length e1, hlen]
      rw [ih g1 g _ l1 e pos, set_bits h hlen hn h32 e1 pos]
      constructor
      · rintro ((hb | hp) | ⟨i, hi, hp⟩)
        · exact Or.inl hb
        · exact Or.inr ⟨0, Nat.succ_pos j, hp⟩
        · exact Or.inr ⟨i + 1, Nat.succ_lt_succ hi, hp⟩
      · rintro (hb | ⟨i, hi, hp⟩)
        · exact Or.inl (Or.inl hb)
        · cases i with
          | zero => exact Or.inl (Or.inr hp)
          | succ i => exact Or.inr ⟨i, Nat.lt_of_succ_lt_succ hi, hp⟩

/-- The bits of the filter after the outer loop of `appendFilter`: those set
before and the `k` probes of every key. -/
theorem addKeys_bits {n : Nat} (k : Nat) (hn : 0 < n) (h32 : 8 * n < 2 ^ 32) :
    ∀ (keys : List Nat) (f g : Filter), f.length = n + 1 → addKeys k keys f = some g →
      ∀ pos, (bitIsSet g pos = true ↔
        (bitIsSet f pos = true ∨
          ∃ h, h ∈ keys ∧ ∃ i, i < k ∧ pos = probeHash (hashDelta h) h i % (8 * n))) := by
  intro keys
  induction keys with
  | nil =>
    intro f g _ e pos
    rw [← Option.some.inj e]
    constructor
    · intro hb
      exact Or.inl hb
    · rintro (hb | ⟨h, hmem, -⟩)
      · exact hb
      · exact absurd hmem (List.not_mem_nil h)
  | cons key rest ih =>
    intro f g hlen e pos
    simp only [addKeys] at e
    cases e1 : setProbes (hashDelta key) k f key with
    | none =>
      rw [e1] at e
      cases e
    | some g1 =>
      rw [e1] at e
      have l1 : g1.length = n + 1 := by rw [setProbes_length _ _ _ _ _ e1, hlen]
      rw [ih g1 g l1 e pos, setProbes_bits (hashDelta key) hn h32 k f g1 key hlen e1 pos]
      constructor
      · rintro ((hb | hp) | ⟨h, hmem, hp⟩)
        · exact Or.inl hb
        · exact Or.inr ⟨key, List.mem_cons_self _ _, hp⟩
        · exact Or.inr ⟨h, List.mem_cons_of_mem _ hmem, hp⟩
      · rintro (hb | ⟨h, hmem, hp⟩)
        · exact Or.inl (Or.inl hb)
        · rcases List.mem_cons.1 hmem with rfl | hmem
          · exact Or.inl (Or.inr hp)
          · exact Or.inr ⟨h, hmem, hp⟩

theorem bitIsSet_replicate_zero (m pos : Nat) :
    bitIsSet (List.replicate m 0) pos = false := by
  unfold bitIsSet
  rw [List.getElem?_replicate]
  split_ifs
  · exact Nat.zero_testBit _
  · rfl

/-- The filter that `appendFilter` returns when `nBytes` is non-negative, the
bit array is shorter than `2 ^ 32` bits and the hashes are `uint32` values: its
length, its probe count, and the exact set of bits of its bit array. -/
theorem appendFilter_bits (cvt : Nat → Nat) (keys : List Nat) (bitsPerKey : Int)
    (h0 : 0 ≤ filterBytes keys.length bitsPerKey)
    (h32 : 8 * filterBytes keys.length bitsPerKey < 2 ^ 32)
    (hk : ∀ h ∈ keys, h < 2 ^ 32) :
    ∃ f, appendFilter cvt keys bitsPerKey = some f ∧
      f.length = (filterBytes keys.length bitsPerKey).toNat + 1 ∧
      f.K = some (probeCount cvt bitsPerKey) ∧
      ∀ pos, pos < 8 * (filterBytes keys.length bitsPerKey).toNat →
        (bitIsSet f pos = true ↔ ∃ h, h ∈ keys ∧ ∃ j, j < probeCount cvt bitsPerKey ∧
          pos = probePos (8 * (filterBytes keys.length bitsPerKey).toNat) h j) := by
  have h8 := filterBytes_ge keys.length bitsPerKey h0
  generalize hB : filterBytes keys.length bitsPerKey = B at h0 h32 h8
  obtain ⟨n, rfl⟩ : ∃ n : Nat, B = n := ⟨B.toNat, by omega⟩
  have hn : 0 < n := by omega
  have hn32 : 8 * n < 2 ^ 32 := by omega
  have hlen0 : (List.replicate (((n : Int) + 1).toNat) 0 : Filter).length = n + 1 := by
    rw [List.length_replicate]
    omega
  obtain ⟨g, e, l, -, -, -⟩ := addKeys_spec (probeCount cvt bitsPerKey) hn hn32 keys _ hlen0
  have hbits := addKeys_bits (probeCount cvt bitsPerKey) hn hn32 keys _ g hlen0 e
  refine ⟨List.set g n (probeCount cvt bitsPerKey), ?_, ?_, ?_, ?_⟩
  · unfold appendFilter setIndex
    dsimp only
    rw [hB, if_neg (by omega), e]
    dsimp only
    rw [if_neg (by omega), Int.toNat_ofNat]
  · rw [List.length_set, l, Int.toNat_ofNat]
  · unfold Filter.K
    rw [List.length_set, l, if_neg (by omega), Nat.add_sub_cancel,
      List.getElem?_set_self (by omega)]
  · intro pos hpos
    rw [Int.toNat_ofNat] at hpos ⊢
    have hset : bitIsSet (List.set g n (probeCount cvt bitsPerKey)) pos = bitIsSet g pos := by
      unfold bitIsSet
      rw [List.getElem?_set_ne (by omega)]
    rw [hset, hbits pos, bitIsSet_replicate_zero]
    constructor
    · rintro (hb | ⟨h, hmem, i, hi, hp⟩)
      · cases hb
      · refine ⟨h, hmem, i, hi, ?_⟩
        rw [hp, probeHash_eq _ _ _ (hk h hmem)]
        rfl
    · rintro ⟨h, hmem, i, hi, hp⟩
      refine Or.inr ⟨h, hmem, i, hi, ?_⟩
      rw [hp, probeHash_eq _ _ _ (hk h hmem)]
      rfl

/-- The value of `Filter.get` on a filter with a bit array of `n` bytes: it
returns, with 1 when the addressed bit is set and 0 when it is not. -/
theorem get_eq {f : Filter} {n : Nat} (h : Nat) (hlen : f.length = n + 1) (hn : 0 < n)
    (h32 : 8 * n < 2 ^ 32) :
    f.get h = some (if bitIsSet f (h % (8 * n)) = true then 1 else 0) := by
  have hm := Nat.mod_lt h (show 0 < 8 * n by omega)
  have hx : h % (8 * n) / 8 < f.length := by omega
  unfold Filter.get bitIsSet
  rw [posInFilter_eq f n h hlen hn h32]
  dsimp only
  rw [List.getElem?_eq_getElem hx]
  dsimp only
  by_cases hb : f[h % (8 * n) / 8].testBit (h % (8 * n) % 8) = true
  · rw [if_pos hb, (shiftRight_and_one _ _).2 hb]
  · rw [if_neg hb]
    have h01 : (f[h % (8 * n) / 8] >>> (h % (8 * n) % 8)) &&& 1 = 0 ∨
        (f[h % (8 * n) / 8] >>> (h % (8 * n) % 8)) &&& 1 = 1 := by
      rw [Nat.and_one_is_mod]
      omega
    rcases h01 with h01 | h01
    · rw [h01]
    · exact absurd ((shiftRight_and_one _ _).1 h01) hb

/-- The probe loop of `MayContain` returns, and returns true exactly when all
its `j` probes are set. -/
theorem mayContainLoop_iff {f : Filter} {n : Nat} (delta : Nat) (hlen : f.length = n + 1)
    (hn : 0 < n) (h32 : 8 * n < 2 ^ 32) :
    ∀ (j h : Nat), ∃ r, mayContainLoop f delta j h = some r ∧
      (r = true ↔ ∀ i, i < j → bitIsSet f (probeHash delta h i % (8 * n)) = true) := by
  intro j
  induction j with
  | zero =>
    intro h
    exact ⟨true, rfl, fun _ => fun i hi => absurd hi (Nat.not_lt_zero i), fun _ => rfl⟩
  | succ j ih =>
    intro h
    simp only [mayContainLoop, get_eq h hlen hn h32]
    by_cases hb : bitIsSet f (h % (8 * n)) = true
    · obtain ⟨r, e, hr⟩ := ih ((h + delta) % 2 ^ 32)
      rw [if_pos hb, if_neg (by norm_num)]
      refine ⟨r, e, ?_⟩
      rw [hr]
      constructor
      · intro hall i hi
        cases i with
        | zero => exact hb
        | succ i => exact hall i (Nat.lt_of_succ_lt_succ hi)
      · intro hall i hi
        exact hall (i + 1) (Nat.succ_lt_succ hi)
    · rw [if_neg hb, if_pos rfl]
      refine ⟨false, rfl, ?_⟩
      constructor
      · intro hf
        cases hf
      · intro hall
        exact absurd (hall 0 (Nat.succ_pos j)) hb

/-- Without overflow in the product, `nBytes` is the byte count of the
specification, `ceil(max(64, max(bitsPerKey, 0) × numKeys) / 8)`, unless the
sum `nBits + 7` overflows, and then it is negative. -/
theorem filterBytes_spec_or (keyLen : Nat) (bitsPerKey : Int)
    (hov : (max bitsPerKey 0).toNat * keyLen < 2 ^ 63) :
    filterBytes keyLen bitsPerKey = (specBytes keyLen bitsPerKey : Nat) ∨
      (filterBytes keyLen bitsPerKey < 0 ∧ 2 ^ 63 ≤ specBits keyLen bitsPerKey + 7) := by
  have hb : (if bitsPerKey < 0 then 0 else bitsPerKey) = ((max bitsPerKey 0).toNat : Int) := by
    split_ifs with hneg
    · rw [max_eq_right (le_of_lt hneg)]
      rfl
    · rw [max_eq_left (not_lt.1 hneg), Int.toNat_of_nonneg (not_lt.1 hneg)]
  unfold filterBytes specBytes specBits
  dsimp only
  rw [hb, ← Nat.cast_mul]
  generalize (max bitsPerKey 0).toNat * keyLen = P at hov ⊢
  have hP : wrapInt64 (P : Int) = P := wrapInt64_of_range (by omega) (by omega)
  rw [hP, Nat.max_def]
  by_cases h64 : (P : Int) < 64
  · left
    rw [if_pos h64, if_neg (by omega), wrapInt64_of_range (by omega) (by omega),
      Int.tdiv_eq_ediv (by omega) (by norm_num)]
    omega
  · rw [if_neg h64, if_pos (by omega)]
    by_cases hov7 : (P : Int) + 7 < 2 ^ 63
    · left
      rw [wrapInt64_of_range (by omega) hov7, Int.tdiv_eq_ediv (by omega) (by norm_num)]
      omega
    · right
      have hW : wrapInt64 ((P : Int) + 7) = -(2 ^ 64 - ((P : Int) + 7)) := by
        unfold wrapInt64
        omega
      rw [hW, Int.neg_tdiv, Int.tdiv_eq_ediv (by omega) (by norm_num)]
      omega

theorem specBytes_ge (keyLen : Nat) (bitsPerKey : Int) :
    8 ≤ specBytes keyLen bitsPerKey ∧
      (max bitsPerKey 0).toNat * keyLen ≤ 8 * specBytes keyLen bitsPerKey := by
  unfold specBytes specBits
  generalize (max bitsPerKey 0).toNat * keyLen = P
  rw [Nat.max_def]
  split_ifs <;> omega

/-- When the bit array of the specification is shorter than `2 ^ 32` bits,
`nBytes` is its byte count. -/
theorem filterBytes_of_small (keyLen : Nat) (bitsPerKey : Int)
    (h32 : 8 * specBytes keyLen bitsPerKey < 2 ^ 32) :
    filterBytes keyLen bitsPerKey = (specBytes keyLen bitsPerKey : Nat) := by
  have h1 := specBytes_ge keyLen bitsPerKey
  rcases filterBytes_spec_or keyLen bitsPerKey (by omega) with h | ⟨-, h⟩
  · exact h
  · exfalso
    unfold specBytes at h32
    omega

/-- Every filter that `appendFilter` returns has `nBytes + 1` bytes, with
`nBytes` non-negative. -/
theorem appendFilter_length {cvt : Nat → Nat} {keys : List Nat} {bitsPerKey : Int}
    {f : Filter} (h : appendFilter cvt keys bitsPerKey = some f) :
    0 ≤ filterBytes keys.length bitsPerKey ∧
      f.length = (filterBytes keys.length bitsPerKey).toNat + 1 := by
  unfold appendFilter at h
  dsimp only at h
  generalize filterBytes keys.length bitsPerKey = B at h ⊢
  by_cases h1 : B + 1 < 0
  · rw [if_pos h1] at h
    cases h
  rw [if_neg h1] at h
  cases e : addKeys (probeCount cvt bitsPerKey) keys (List.replicate (B + 1).toNat 0) with
  | none =>
    rw [e] at h
    cases h
  | some g =>
    rw [e] at h
    dsimp only at h
    have hl := addKeys_length _ _ _ _ e
    rw [List.length_replicate] at hl
    unfold setIndex at h
    by_cases h2 : B < 0 ∨ (g.length : Int) ≤ B
    · rw [if_pos h2] at h
      cases h
    rw [if_neg h2] at h
    rw [← Option.some.inj h, List.length_set]
    omega

/-- With a bit array of exactly `2 ^ 32` bits the `uint32` bit count of
`posInFilter` is 0 and the first `set` panics on the division. -/
theorem addKeys_zero_modulus (f : Filter) (k h : Nat) (hlen : f.length = 536870913)
    (hk : 1 ≤ k) : addKeys k [h] f = none := by
  obtain ⟨j, rfl⟩ : ∃ j, k = j + 1 := ⟨k - 1, by omega⟩
  have e : toUint32 (wrapInt64 (((f.length : Int) - 1) * 8)) = 0 := by
    rw [hlen]
    decide
  have hset : f.set h = none := by
    unfold Filter.set posInFilter
    dsimp only
    rw [e, if_pos rfl]
  simp only [addKeys, setProbes, hset]

/-- The filter built from no key: eight zero bytes and the probe count. -/
theorem NewFilter_nil (cvt : Nat → Nat) (bitsPerKey : Int) :
    NewFilter cvt [] bitsPerKey = some (List.replicate 8 0 ++ [probeCount cvt bitsPerKey]) := by
  have hB : filterBytes ([] : List Nat).length bitsPerKey = 8 := by
    unfold filterBytes
    simp only [List.length_nil, Nat.cast_zero, mul_zero]
    decide
  unfold NewFilter appendFilter setIndex
  dsimp only
  rw [hB, if_neg (by decide)]
  simp only [addKeys]
  rw [if_neg (by decide)]
  rfl

/-- C1: no false negatives. When the bit array of the filter built from `keys`
with `bitsPerKey` has fewer than `2 ^ 32` bits, `NewFilter` returns a filter on
which `MayContain h` returns true for every hash `h` of `keys`. -/
theorem no_false_negatives (cvt : Nat → Nat) (keys : List Nat) (bitsPerKey : Int) (h : Nat)
    (h0 : 0 ≤ filterBytes keys.length bitsPerKey)
    (h32 : 8 * filterBytes keys.length bitsPerKey < 2 ^ 32) (hmem : h ∈ keys) :
    ∃ f, NewFilter cvt keys bitsPerKey = some f ∧ f.MayContain h = some true := by
  obtain ⟨f, e, l, k, p⟩ := appendFilter_spec cvt keys bitsPerKey h0 h32
  have h8 := filterBytes_ge keys.length bitsPerKey h0
  refine ⟨f, e, ?_⟩
  unfold Filter.MayContain
  rw [k]
  exact mayContainLoop_of_probesSet l (by omega) (by omega) _ h (p h hmem)

/-- Witness of C1: four hashes at 10 bits per key; the hash 3 is found. -/
theorem no_false_negatives_witness :
    0 ≤ filterBytes 4 10 ∧ 8 * filterBytes 4 10 < 2 ^ 32 ∧ 3 ∈ [1, 2, 3, 4000000000] ∧
      ∃ f, NewFilter (fun _ => 0) [1, 2, 3, 4000000000] 10 = some f ∧
        f.MayContain 3 = some true :=
  ⟨by decide, by decide, by decide,
    no_false_negatives (fun _ => 0) [1, 2, 3, 4000000000] 10 3
      (by decide) (by decide) (by decide)⟩

/-- C9: for every list of hashes and every `bitsPerKey`, the last byte of the
filter that `NewFilter` returns, the probe count `Filter.K`, lies in
`[1, 30]`. -/
theorem probe_count_in_range (cvt : Nat → Nat) (keys : List Nat) (bitsPerKey : Int)
    (f : Filter) (h : NewFilter cvt keys bitsPerKey = some f) :
    ∃ k, f.K = some k ∧ 1 ≤ k ∧ k ≤ 30 :=
  ⟨probeCount cvt bitsPerKey, appendFilter_K h, probeCount_range cvt bitsPerKey⟩

/-- Witness of C9: 1000 bits per key, beyond the range of `uint8`, on the
filter built from no key: nine bytes, the last one a probe count in range. -/
theorem probe_count_in_range_witness :
    NewFilter (fun t => t) [] 1000 = some [0, 0, 0, 0, 0, 0, 0, 0, 30] ∧
      ∃ k, Filter.K [0, 0, 0, 0, 0, 0, 0, 0, 30] = some k ∧ 1 ≤ k ∧ k ≤ 30 :=
  ⟨by decide,
    probe_count_in_range (fun t => t) [] 1000 [0, 0, 0, 0, 0, 0, 0, 0, 30] (by decide)⟩

/-- Counterexample to C10 as stated: at 10 bits per key the stored probe count
is 6, the integer part of 6.9, and not the rounded 7. -/
theorem probe_count_rounded_counterexample :
    (NewFilter (fun _ => 0) [1, 2, 3] 10).bind Filter.K = some 6 ∧
      roundedProbeCount 10 = 7 := by
  decide

/-- C10, as amended: for every list of hashes and every `bitsPerKey` up to 371,
the probe count stored in the filter is `⌊max(bitsPerKey, 0) × 0.69⌋` clamped to
`[1, 30]`: the product is truncated, not rounded. -/
theorem probe_count_truncated (cvt : Nat → Nat) (keys : List Nat) (bitsPerKey : Int)
    (f : Filter) (hb : bitsPerKey ≤ 371) (h : NewFilter cvt keys bitsPerKey = some f) :
    f.K = some (truncatedProbeCount bitsPerKey) := by
  rw [← probeCount_eq_truncated cvt bitsPerKey hb]
  exact appendFilter_K h

/-- Witness of C10, as amended: 10 bits per key give 6 probes. -/
theorem probe_count_truncated_witness :
    NewFilter (fun _ => 0) [] 10 = some [0, 0, 0, 0, 0, 0, 0, 0, 6] ∧
      Filter.K [0, 0, 0, 0, 0, 0, 0, 0, 6] = some (truncatedProbeCount 10) ∧
      truncatedProbeCount 10 = 6 :=
  ⟨by decide,
    probe_count_truncated (fun _ => 0) [] 10 [0, 0, 0, 0, 0, 0, 0, 0, 6] (by decide)
      (by decide),
    by decide⟩

/-- C12: on a filter of length `L ≥ 2` with `8 * (L - 1) < 2 ^ 32` and a
`uint32` hash `h`, with `k` the last byte, `MayContain h` returns, and returns
true exactly when for every `j < k` the bit at position
`((h + j * delta) mod 2 ^ 32) mod (8 * (L - 1))` is set (byte `pos / 8`, bit
`pos % 8`); every such byte index is below `L - 1`. -/
theorem mayContain_iff (f : Filter) (h : Nat) (hL : 2 ≤ f.length)
    (h32 : 8 * (f.length - 1) < 2 ^ 32) (hh : h < 2 ^ 32) :
    ∃ k r, f[f.length - 1]? = some k ∧ f.MayContain h = some r ∧
      (r = true ↔ ∀ j, j < k → bitIsSet f (probePos (8 * (f.length - 1)) h j) = true) ∧
      ∀ j, probePos (8 * (f.length - 1)) h j / 8 < f.length - 1 := by
  have hlen : f.length = (f.length - 1) + 1 := by omega
  have hn : 0 < f.length - 1 := by omega
  have hlast : f.length - 1 < f.length := by omega
  obtain ⟨r, e, hr⟩ := mayContainLoop_iff (hashDelta h) hlen hn h32 f[f.length - 1] h
  refine ⟨f[f.length - 1], r, List.getElem?_eq_getElem hlast, ?_, ?_, ?_⟩
  · unfold Filter.MayContain Filter.K
    rw [if_neg (by omega), List.getElem?_eq_getElem hlast]
    exact e
  · rw [hr]
    constructor
    · intro hall j hj
      have := hall j hj
      rw [probeHash_eq _ _ _ hh] at this
      exact this
    · intro hall j hj
      rw [probeHash_eq _ _ _ hh]
      exact hall j hj
  · intro j
    have hm := Nat.mod_lt ((h + j * hashDelta h) % 2 ^ 32) (show 0 < 8 * (f.length - 1) by omega)
    unfold probePos
    omega

/-- Witness of C12: the filter `[5, 0, 2]` has 16 bits and 2 probes; the hash 0
probes positions 0 and 0, both set, and `MayContain 0` is true. -/
theorem mayContain_iff_witness :
    Filter.MayContain [5, 0, 2] 0 = some true ∧
      ∃ k r, ([5, 0, 2] : Filter)[([5, 0, 2] : Filter).length - 1]? = some k ∧
        Filter.MayContain [5, 0, 2] 0 = some r ∧
        (r = true ↔ ∀ j, j < k →
          bitIsSet [5, 0, 2] (probePos (8 * (([5, 0, 2] : Filter).length - 1)) 0 j) = true) ∧
        ∀ j, probePos (8 * (([5, 0, 2] : Filter).length - 1)) 0 j / 8 <
          ([5, 0, 2] : Filter).length - 1 :=
  ⟨by decide, mayContain_iff [5, 0, 2] 0 (by decide) (by decide) (by decide)⟩

/-- Counterexample to C11 as stated: one key at `2 ^ 32` bits per key, a
product without overflow; the bit array has exactly `2 ^ 32` bits, the `uint32`
bit count of `posInFilter` is 0 and `NewFilter` panics instead of returning
`2 ^ 29 + 1` bytes. -/
theorem filter_length_counterexample :
    (max (4294967296 : Int) 0).toNat * [0].length < 2 ^ 63 ∧
      specBytes [0].length 4294967296 = 536870912 ∧
      NewFilter (fun _ => 0) [0] 4294967296 = none := by
  have hB : filterBytes [0].length 4294967296 = 536870912 := by decide
  refine ⟨by decide, by decide, ?_⟩
  unfold NewFilter appendFilter
  dsimp only
  rw [hB, if_neg (by decide),
    addKeys_zero_modulus _ _ _ (by rw [List.length_replicate]; decide)
      (probeCount_range _ _).1]

/-- C11, as amended: without overflow in `max(bitsPerKey, 0) × n`, every
filter that `NewFilter` returns has exactly `ceil(nBits / 8) + 1` bytes, with
`nBits = max(64, max(bitsPerKey, 0) × n)`, and so at least 9; and `NewFilter`
does return when the bit array has fewer than `2 ^ 32` bits. -/
theorem filter_length (cvt : Nat → Nat) (keys : List Nat) (bitsPerKey : Int)
    (hov : (max bitsPerKey 0).toNat * keys.length < 2 ^ 63) :
    (∀ f, NewFilter cvt keys bitsPerKey = some f →
        f.length = specBytes keys.length bitsPerKey + 1 ∧ 9 ≤ f.length) ∧
      (8 * specBytes keys.length bitsPerKey < 2 ^ 32 →
        ∃ f, NewFilter cvt keys bitsPerKey = some f) := by
  have h8 := (specBytes_ge keys.length bitsPerKey).1
  constructor
  · intro f hf
    obtain ⟨h0, hl⟩ := appendFilter_length hf
    rcases filterBytes_spec_or keys.length bitsPerKey hov with h | ⟨h, -⟩
    · rw [hl, h, Int.toNat_ofNat]
      omega
    · omega
  · intro h32
    have hB := filterBytes_of_small keys.length bitsPerKey h32
    obtain ⟨f, hf, -⟩ := appendFilter_spec cvt keys bitsPerKey (by omega) (by omega)
    exact ⟨f, hf⟩

/-- Witness of C11, as amended: the filter built from no key at 10 bits per
key has `ceil(64 / 8) + 1 = 9` bytes. -/
theorem filter_length_witness :
    NewFilter (fun _ => 0) [] 10 = some [0, 0, 0, 0, 0, 0, 0, 0, 6] ∧
      ([0, 0, 0, 0, 0, 0, 0, 0, 6] : Filter).length = specBytes ([] : List Nat).length 10 + 1 ∧
      9 ≤ ([0, 0, 0, 0, 0, 0, 0, 0, 6] : Filter).length :=
  ⟨by decide,
    (filter_length (fun _ => 0) [] 10 (by decide)).1 [0, 0, 0, 0, 0, 0, 0, 0, 6] (by decide)⟩

/-- Counterexample to C15 as stated: 7 keys at 10 bits per key, `nBits = 70`.
The filter has 9 bytes, and the key 70 sets bit 70 of the bit array, which is
not a position modulo 70. -/
theorem bits_modulus_counterexample :
    (NewFilter (fun _ => 0) [70, 1, 2, 3, 4, 5, 6] 10).map (fun f => bitIsSet f 70)
        = some true ∧
      specBits [70, 1, 2, 3, 4, 5, 6].length 10 = 70 ∧
      ∀ h ∈ [70, 1, 2, 3, 4, 5, 6], ∀ j < 6, probePos 70 h j ≠ 70 := by
  decide

/-- C15, as amended: when the bit array has fewer than `2 ^ 32` bits and the
hashes are `uint32` values, `NewFilter` returns a filter whose bit array of
`nBytes = ceil(nBits / 8)` bytes has exactly the bits
`((h + j * delta(h)) mod 2 ^ 32) mod (8 * nBytes)` set, for `h` in `keys` and
`j < k`: the modulus is the bit count rounded up to whole bytes. -/
theorem bits_set_exactly (cvt : Nat → Nat) (keys : List Nat) (bitsPerKey : Int)
    (h32 : 8 * specBytes keys.length bitsPerKey < 2 ^ 32) (hk : ∀ h ∈ keys, h < 2 ^ 32) :
    ∃ f, NewFilter cvt keys bitsPerKey = some f ∧
      f.K = some (probeCount cvt bitsPerKey) ∧
      ∀ pos, pos < 8 * specBytes keys.length bitsPerKey →
        (bitIsSet f pos = true ↔ ∃ h, h ∈ keys ∧ ∃ j, j < probeCount cvt bitsPerKey ∧
          pos = probePos (8 * specBytes keys.length bitsPerKey) h j) := by
  have hB := filterBytes_of_small keys.length bitsPerKey h32
  obtain ⟨f, hf, -, hK, hbits⟩ :=
    appendFilter_bits cvt keys bitsPerKey (by omega) (by omega) hk
  rw [hB, Int.toNat_ofNat] at hbits
  exact ⟨f, hf, hK, hbits⟩

/-- Witness of C15, as amended: the 7 keys at 10 bits per key; the bit array
has 72 bits and bit 70 is the first probe of the key 70. -/
theorem bits_set_exactly_witness :
    8 * specBytes [70, 1, 2, 3, 4, 5, 6].length 10 = 72 ∧ probePos 72 70 0 = 70 ∧
      ∃ f, NewFilter (fun _ => 0) [70, 1, 2, 3, 4, 5, 6] 10 = some f ∧
        f.K = some (probeCount (fun _ => 0) 10) ∧
        ∀ pos, pos < 8 * specBytes [70, 1, 2, 3, 4, 5, 6].length 10 →
          (bitIsSet f pos = true ↔ ∃ h, h ∈ [70, 1, 2, 3, 4, 5, 6] ∧
            ∃ j, j < probeCount (fun _ => 0) 10 ∧
              pos = probePos (8 * specBytes [70, 1, 2, 3, 4, 5, 6].length 10) h j) :=
  ⟨by decide, by decide,
    bits_set_exactly (fun _ => 0) [70, 1, 2, 3, 4, 5, 6] 10 (by decide) (by decide)⟩

/-- C20: when the bit array has fewer than `2 ^ 32` bits and the hashes are
`uint32` values, every bit set in the first `nBytes` bytes of the filter that
`NewFilter` returns is at position `((h + j * delta(h)) mod 2 ^ 32) mod
(8 * nBytes)` for some `h` in `keys` and some `j < k`; the filter built from no
key is eight zero bytes and the probe count, and `MayContain` returns false on
it for every hash. -/
theorem no_spurious_bits (cvt : Nat → Nat) (keys : List Nat) (bitsPerKey : Int)
    (h0 : 0 ≤ filterBytes keys.length bitsPerKey)
    (h32 : 8 * filterBytes keys.length bitsPerKey < 2 ^ 32)
    (hk : ∀ h ∈ keys, h < 2 ^ 32) :
    ∃ f, NewFilter cvt keys bitsPerKey = some f ∧
      (∀ pos, pos < 8 * (filterBytes keys.length bitsPerKey).toNat →
        bitIsSet f pos = true → ∃ h, h ∈ keys ∧ ∃ j, j < probeCount cvt bitsPerKey ∧
          pos = probePos (8 * (filterBytes keys.length bitsPerKey).toNat) h j) ∧
      (keys = [] → f = List.replicate 8 0 ++ [probeCount cvt bitsPerKey] ∧
        ∀ h, f.MayContain h = some false) := by
  have h8 := filterBytes_ge keys.length bitsPerKey h0
  obtain ⟨f, hf, hl, hK, hbits⟩ := appendFilter_bits cvt keys bitsPerKey h0 h32 hk
  refine ⟨f, hf, fun pos hpos hb => (hbits pos hpos).1 hb, ?_⟩
  intro hnil
  subst hnil
  have hf2 := NewFilter_nil cvt bitsPerKey
  unfold NewFilter at hf2
  rw [hf] at hf2
  refine ⟨Option.some.inj hf2, ?_⟩
  intro h
  have hn : 0 < (filterBytes ([] : List Nat).length bitsPerKey).toNat := by omega
  have hn32 : 8 * (filterBytes ([] : List Nat).length bitsPerKey).toNat < 2 ^ 32 := by omega
  obtain ⟨j, hj⟩ : ∃ j, probeCount cvt bitsPerKey = j + 1 :=
    ⟨probeCount cvt bitsPerKey - 1, by have := (probeCount_range cvt bitsPerKey).1; omega⟩
  have hbit : bitIsSet f (h % (8 * (filterBytes ([] : List Nat).length bitsPerKey).toNat))
      = false := by
    rw [Bool.eq_false_iff]
    intro hb
    obtain ⟨h1, hmem, -⟩ := (hbits _ (Nat.mod_lt _ (by omega))).1 hb
    exact absurd hmem (List.not_mem_nil h1)
  unfold Filter.MayContain
  rw [hK, hj]
  simp only [mayContainLoop, get_eq h hl hn hn32, hbit]
  rfl

/-- Witness of C20: for the filter built from no key at 10 bits per key the
hypotheses hold, and `MayContain` is false on it. -/
theorem no_spurious_bits_witness :
    0 ≤ filterBytes ([] : List Nat).length 10 ∧
      8 * filterBytes ([] : List Nat).length 10 < 2 ^ 32 ∧
      ∃ f, NewFilter (fun _ => 0) [] 10 = some f ∧
        (∀ pos, pos < 8 * (filterBytes ([] : List Nat).length 10).toNat →
          bitIsSet f pos = true → ∃ h, h ∈ ([] : List Nat) ∧
            ∃ j, j < probeCount (fun _ => 0) 10 ∧
              pos = probePos (8 * (filterBytes ([] : List Nat).length 10).toNat) h j) ∧
        (([] : List Nat) = [] → f = List.replicate 8 0 ++ [probeCount (fun _ => 0) 10] ∧
          ∀ h, f.MayContain h = some false) :=
  ⟨by decide, by decide,
    no_spurious_bits (fun _ => 0) [] 10 (by decide) (by decide) (by decide)⟩

end Corekv
